import Mathlib

/-!
# BladeTexture: a regular-polygon aperture mask

A shallow embedding of `src/core/materials/BladeTexture.cpp`.

Single-precision `float` values are interpreted as real numbers and every
floating-point operation as the exact real operation, so the statements below
are about the geometry the code computes, not about rounding.  A yes/no answer
of the code that rounding can decide (a point on the polygon border, a
rotation too large for single precision to resolve) is therefore outside what
these statements claim; where a statement about such an answer is made, it
carries a margin and a bound on the rotation.  `int` values are integers; the
conversion `int(x)` truncates toward zero.
-/

namespace Tungsten

/-- Modelled from the spec: the constant `PI` of `math/Angle.hpp`, which is
not part of the sources at hand; it is the circle constant. -/
noncomputable def PI : ℝ := Real.pi

/-- Modelled from the spec: the constant `TWO_PI` of `math/Angle.hpp`, which
is not part of the sources at hand; the spec writes it `2π`. -/
noncomputable def TWO_PI : ℝ := 2 * Real.pi

/-- Two-component vector (`Vec2f`). -/
structure Vec2f where
  x : ℝ
  y : ℝ

/-- Three-component vector (`Vec3f`). -/
structure Vec3f where
  x : ℝ
  y : ℝ
  z : ℝ

/-- The one-argument constructor `Vec3f(a)`: every component is `a`. -/
def Vec3f.broadcast (a : ℝ) : Vec3f := ⟨a, a, a⟩

/-- The member `sum()`: the sum of the components. -/
def Vec2f.sum (v : Vec2f) : ℝ := v.x + v.y

/-- The member `dot`. -/
def Vec2f.dot (a b : Vec2f) : ℝ := a.x * b.x + a.y * b.y

/-- Component-wise difference of two vectors. -/
def Vec2f.sub (a b : Vec2f) : Vec2f := ⟨a.x - b.x, a.y - b.y⟩

/-- Vector times scalar. -/
def Vec2f.scale (a : Vec2f) (c : ℝ) : Vec2f := ⟨a.x * c, a.y * c⟩

/-- Vector plus scalar (the scalar is added to every component). -/
def Vec2f.addScalar (a : Vec2f) (c : ℝ) : Vec2f := ⟨a.x + c, a.y + c⟩

/-- Vector minus scalar (the scalar is subtracted from every component). -/
def Vec2f.subScalar (a : Vec2f) (c : ℝ) : Vec2f := ⟨a.x - c, a.y - c⟩

/-- The library function `std::atan2(y, x)`: the polar angle of `(x, y)` in
`(-π, π]`, with `atan2 0 0 = 0`. -/
noncomputable def atan2 (y x : ℝ) : ℝ := Complex.arg ⟨x, y⟩

/-- The conversion `int(x)` of a float: truncation toward zero. -/
noncomputable def truncToInt (x : ℝ) : ℤ := if 0 ≤ x then ⌊x⌋ else ⌈x⌉

/-- The fields of `BladeTexture`: the two configured values and the four
values derived from them by `init`. -/
structure BladeTexture where
  numBlades : ℤ
  angle : ℝ
  bladeAngle : ℝ
  area : ℝ
  baseEdge : Vec2f
  baseNormal : Vec2f

namespace BladeTexture

/-- `BladeTexture::init`: recompute the derived fields. -/
noncomputable def init (t : BladeTexture) : BladeTexture :=
  let bladeAngle := TWO_PI / (t.numBlades : ℝ)
  let sinAngle := Real.sin (bladeAngle * 0.5)
  let cosAngle := Real.cos (bladeAngle * 0.5)
  { numBlades := t.numBlades
    angle := t.angle
    bladeAngle := bladeAngle
    area := 0.25 * 0.5 * (t.numBlades : ℝ) * Real.sin bladeAngle
    baseEdge := ((Vec2f.mk (-sinAngle) cosAngle).scale 2.0).scale
      (Real.sin (PI / (t.numBlades : ℝ)))
    baseNormal := Vec2f.mk cosAngle sinAngle }

/-- A texture with the given blade count and angle, its derived fields
produced by `init` (the fields `init` overwrites start at zero). -/
noncomputable def configured (n : ℤ) (r : ℝ) : BladeTexture :=
  init ⟨n, r, 0, 0, ⟨0, 0⟩, ⟨0, 0⟩⟩

/-- `BladeTexture::BladeTexture()`: six blades, angle `0.5*PI/6`. -/
noncomputable def default : BladeTexture :=
  configured 6 (0.5 * PI / ((6 : ℤ) : ℝ))

/-- `BladeTexture::operator[](const Vec2f &uv)`: the mask value at `uv`. -/
noncomputable def evaluate (t : BladeTexture) (uv : Vec2f) : Vec3f :=
  if uv.sum = 0 then Vec3f.broadcast 1
  else
    let globalUv := (uv.scale 2).subScalar 1
    let phi₀ := atan2 globalUv.y globalUv.x - t.angle
    let phi := -((⌊phi₀ / t.bladeAngle⌋ : ℝ) * t.bladeAngle + t.angle)
    let sinPhi := Real.sin phi
    let cosPhi := Real.cos phi
    let localUv : Vec2f :=
      ⟨globalUv.x * cosPhi - globalUv.y * sinPhi, globalUv.y * cosPhi + globalUv.x * sinPhi⟩
    if t.baseNormal.dot (localUv.sub ⟨1, 0⟩) > 0 then Vec3f.broadcast 0
    else Vec3f.broadcast 1

/-- The membership test of the spec: the mask value at `uv` is one. -/
def contains (t : BladeTexture) (uv : Vec2f) : Prop :=
  evaluate t uv = Vec3f.broadcast 1

/-- `BladeTexture::sample`: warp the unit square onto the polygon.  The
unused `TextureMapJacobian` argument is left out. -/
noncomputable def sample (t : BladeTexture) (uv : Vec2f) : Vec2f :=
  let u₀ := uv.x * (t.numBlades : ℝ)
  let blade : ℤ := truncToInt u₀
  let u := u₀ - (blade : ℝ)
  let phi := t.angle + (blade : ℝ) * t.bladeAngle
  let sinPhi := Real.sin phi
  let cosPhi := Real.cos phi
  let uSqrt := Real.sqrt u
  let alpha := 1 - uSqrt
  let beta := (1 - uv.y) * uSqrt
  let localUv : Vec2f :=
    ⟨(1 + t.baseEdge.x) * beta + (1 - alpha - beta), t.baseEdge.y * beta⟩
  ((Vec2f.mk (localUv.x * cosPhi - localUv.y * sinPhi)
      (localUv.y * cosPhi + localUv.x * sinPhi)).scale 0.5).addScalar 0.5

/-- `BladeTexture::pdf`: the density of `sample` at `uv`.  The unused
`TextureMapJacobian` argument is left out. -/
noncomputable def pdf (t : BladeTexture) (uv : Vec2f) : ℝ :=
  if uv.sum = 0 then 1 / t.area
  else
    let globalUv := (uv.scale 2).subScalar 1
    let phi₀ := atan2 globalUv.y globalUv.x - t.angle
    let phi := -((⌊phi₀ / t.bladeAngle⌋ : ℝ) * t.bladeAngle + t.angle)
    let sinPhi := Real.sin phi
    let cosPhi := Real.cos phi
    let localUv : Vec2f :=
      ⟨globalUv.x * cosPhi - globalUv.y * sinPhi, globalUv.y * cosPhi + globalUv.x * sinPhi⟩
    if t.baseNormal.dot (localUv.sub ⟨1, 0⟩) > 0 then 0
    else 1 / t.area

/-- `BladeTexture::setAngle`. -/
noncomputable def setAngle (t : BladeTexture) (angle : ℝ) : BladeTexture :=
  init { t with angle := angle }

/-- `BladeTexture::setNumBlades`. -/
noncomputable def setNumBlades (t : BladeTexture) (numBlades : ℤ) : BladeTexture :=
  init { t with numBlades := numBlades }

/-! ## Names for the intermediate values of the membership test -/

/-- The wedge index computed by the fold of `evaluate` and `pdf`: the floor of
the polar angle, measured from the rotation, over the sector angle. -/
noncomputable def foldIndex (t : BladeTexture) (uv : Vec2f) : ℤ :=
  ⌊(atan2 (uv.y * 2 - 1) (uv.x * 2 - 1) - t.angle) / t.bladeAngle⌋

/-- The quantity whose sign decides the general branch of `evaluate` and
`pdf`: the base normal dotted with the folded point minus `(1, 0)`. -/
noncomputable def edgeValue (t : BladeTexture) (uv : Vec2f) : ℝ :=
  let gx := uv.x * 2 - 1
  let gy := uv.y * 2 - 1
  let phi := -((⌊(atan2 gy gx - t.angle) / t.bladeAngle⌋ : ℝ) * t.bladeAngle + t.angle)
  t.baseNormal.x * (gx * Real.cos phi - gy * Real.sin phi - 1)
    + t.baseNormal.y * (gy * Real.cos phi + gx * Real.sin phi - 0)

/-- The folded point `localUv` computed by `evaluate` and `pdf`. -/
noncomputable def localPoint (t : BladeTexture) (uv : Vec2f) : Vec2f :=
  let gx := uv.x * 2 - 1
  let gy := uv.y * 2 - 1
  let phi := -((⌊(atan2 gy gx - t.angle) / t.bladeAngle⌋ : ℝ) * t.bladeAngle + t.angle)
  ⟨gx * Real.cos phi - gy * Real.sin phi, gy * Real.cos phi + gx * Real.sin phi⟩

/-! ## Names used by the statements -/

/-- The wedge index `blade` computed by `sample`. -/
noncomputable def sampleBlade (t : BladeTexture) (uv : Vec2f) : ℤ :=
  truncToInt (uv.x * (t.numBlades : ℝ))

/-- The `k`-th vertex of the polygon in uv-space: at distance `0.5` from the
centre `(0.5, 0.5)`, at the polar angle `angle + k * bladeAngle`. -/
noncomputable def polygonVertex (t : BladeTexture) (k : ℤ) : Vec2f :=
  ⟨0.5 + 0.5 * Real.cos (t.angle + (k : ℝ) * t.bladeAngle),
    0.5 + 0.5 * Real.sin (t.angle + (k : ℝ) * t.bladeAngle)⟩

/-- The area of the triangle with the given corners (half the absolute cross
product of two sides). -/
noncomputable def triangleArea (a b c : Vec2f) : ℝ :=
  |(b.x - a.x) * (c.y - a.y) - (c.x - a.x) * (b.y - a.y)| / 2

/-- `sample` as a map of the plane. -/
noncomputable def sampleMap (t : BladeTexture) (p : ℝ × ℝ) : ℝ × ℝ :=
  ((sample t ⟨p.1, p.2⟩).x, (sample t ⟨p.1, p.2⟩).y)

/-- The matrix of partial derivatives of `sample` at `p`. -/
noncomputable def sampleJacobian (t : BladeTexture) (p : ℝ × ℝ) : ℝ × ℝ →L[ℝ] ℝ × ℝ :=
  let k : ℝ := (truncToInt (p.1 * (t.numBlades : ℝ)) : ℝ)
  let s := Real.sqrt (p.1 * (t.numBlades : ℝ) - k)
  let C := Real.cos (t.angle + k * t.bladeAngle)
  let S := Real.sin (t.angle + k * t.bladeAngle)
  let ca := Real.cos t.bladeAngle
  let sa := Real.sin t.bladeAngle
  LinearMap.toContinuousLinearMap (Matrix.toLin (Basis.finTwoProd ℝ) (Basis.finTwoProd ℝ)
    !![(t.numBlades : ℝ) / (2 * s) * (((1 - p.2) * ca + p.2) * C - (1 - p.2) * sa * S) / 2,
       s * ((1 - ca) * C + sa * S) / 2;
       (t.numBlades : ℝ) / (2 * s) * ((1 - p.2) * sa * C + ((1 - p.2) * ca + p.2) * S) / 2,
       s * (-sa * C + (1 - ca) * S) / 2])

/-- The region accepted by the membership test, as a set of the plane. -/
def polygon (t : BladeTexture) : Set (ℝ × ℝ) := {q | contains t ⟨q.1, q.2⟩}

/-- The unit square without the borders of the strips: where `sample` is smooth. -/
def sampleDomain (t : BladeTexture) : Set (ℝ × ℝ) :=
  {p | 0 < p.1 ∧ p.1 < 1 ∧ 0 < Int.fract (p.1 * (t.numBlades : ℝ)) ∧ 0 < p.2 ∧ p.2 < 1}

/-- The inverse of `sample` on the polygon: from the folded point, its two
coordinates along the sides of the canonical wedge give back `v` and the square
root of the rescaled `u`, and the fold index gives back the wedge. -/
noncomputable def unsample (t : BladeTexture) (uv : Vec2f) : Vec2f :=
  let mu := (localPoint t uv).y / Real.sin t.bladeAngle
  let lam := (localPoint t uv).x - mu * Real.cos t.bladeAngle
  ⟨(((foldIndex t uv % t.numBlades : ℤ) : ℝ) + (lam + mu) ^ 2) / (t.numBlades : ℝ),
    lam / (lam + mu)⟩

/-- The lines that carry the points of the polygon `sample` does not reach:
the sentinel line, the sides of the wedges and the edges. -/
def polygonBorder (n : ℤ) (r : ℝ) : Set (ℝ × ℝ) :=
  {q | (1 : ℝ) * (q.1 * 2 - 1) + 1 * (q.2 * 2 - 1) = -2}
    ∪ ((⋃ j : ℤ, {q : ℝ × ℝ |
          Real.sin (-((j : ℝ) * (2 * Real.pi / (n : ℝ)) + r)) * (q.1 * 2 - 1)
            + Real.cos (-((j : ℝ) * (2 * Real.pi / (n : ℝ)) + r)) * (q.2 * 2 - 1) = 0})
      ∪ ⋃ j : ℤ, {q : ℝ × ℝ |
          (Real.cos (Real.pi / (n : ℝ)) * Real.cos (-((j : ℝ) * (2 * Real.pi / (n : ℝ)) + r))
              + Real.sin (Real.pi / (n : ℝ)) * Real.sin (-((j : ℝ) * (2 * Real.pi / (n : ℝ)) + r)))
            * (q.1 * 2 - 1)
          + (Real.sin (Real.pi / (n : ℝ)) * Real.cos (-((j : ℝ) * (2 * Real.pi / (n : ℝ)) + r))
              - Real.cos (Real.pi / (n : ℝ)) * Real.sin (-((j : ℝ) * (2 * Real.pi / (n : ℝ)) + r)))
            * (q.2 * 2 - 1) = Real.cos (Real.pi / (n : ℝ))})

/-- The lines of the unit square on which `sample` changes wedge, and the
line `v = 0`. -/
def stripBorder (n : ℤ) : Set (ℝ × ℝ) :=
  {q | (0 : ℝ) * (q.1 * 2 - 1) + 1 * (q.2 * 2 - 1) = -1}
    ∪ ⋃ j : ℤ, {q : ℝ × ℝ | (1 : ℝ) * (q.1 * 2 - 1) + 0 * (q.2 * 2 - 1)
        = (j : ℝ) / (n : ℝ) * 2 - 1}

/-- The states the texture can be in: the default-constructed one, and every
state obtained from a reachable one by `setAngle` or `setNumBlades`. -/
inductive Reachable : BladeTexture → Prop
  | construct : Reachable BladeTexture.default
  | setAngle (t : BladeTexture) (angle : ℝ) : Reachable t → Reachable (setAngle t angle)
  | setNumBlades (t : BladeTexture) (numBlades : ℤ) :
      Reachable t → Reachable (setNumBlades t numBlades)

/-- The unrotated point `localUv` computed by `sample`. -/
noncomputable def sampleLocal (t : BladeTexture) (uv : Vec2f) : Vec2f :=
  let u₀ := uv.x * (t.numBlades : ℝ)
  let blade : ℤ := truncToInt u₀
  let u := u₀ - (blade : ℝ)
  let uSqrt := Real.sqrt u
  let alpha := 1 - uSqrt
  let beta := (1 - uv.y) * uSqrt
  ⟨(1 + t.baseEdge.x) * beta + (1 - alpha - beta), t.baseEdge.y * beta⟩

/-- The reference membership test of the spec: the centred point lies on the
inner side of each of the `n` edges, edge `k` running through the vertex
`V k = (cos (r + k a), sin (r + k a))` with outward normal
`(cos (r + (k + 1/2) a), sin (r + (k + 1/2) a))`, `a = 2π / n`. -/
def polygonTest (n : ℤ) (r : ℝ) (uv : Vec2f) : Prop :=
  ∀ k : ℤ, 0 ≤ k → k ≤ n - 1 →
    Real.cos (r + ((k : ℝ) + 1 / 2) * (2 * Real.pi / (n : ℝ)))
        * ((2 * uv.x - 1) - Real.cos (r + (k : ℝ) * (2 * Real.pi / (n : ℝ))))
      + Real.sin (r + ((k : ℝ) + 1 / 2) * (2 * Real.pi / (n : ℝ)))
        * ((2 * uv.y - 1) - Real.sin (r + (k : ℝ) * (2 * Real.pi / (n : ℝ)))) ≤ 0

/-! ## The derived fields -/

open Real MeasureTheory

theorem configured_numBlades (n : ℤ) (r : ℝ) : (configured n r).numBlades = n := rfl
theorem configured_angle (n : ℤ) (r : ℝ) : (configured n r).angle = r := rfl
theorem configured_bladeAngle (n : ℤ) (r : ℝ) :
    (configured n r).bladeAngle = 2 * π / (n : ℝ) := rfl
theorem configured_area (n : ℤ) (r : ℝ) :
    (configured n r).area = 0.125 * (n : ℝ) * Real.sin (2 * π / (n : ℝ)) := by
  simp only [configured, init, TWO_PI]
  norm_num

theorem half_bladeAngle (n : ℤ) : 2 * π / (n : ℝ) * 0.5 = π / (n : ℝ) := by
  ring

theorem configured_baseNormal (n : ℤ) (r : ℝ) :
    (configured n r).baseNormal = ⟨Real.cos (π / (n : ℝ)), Real.sin (π / (n : ℝ))⟩ := by
  simp only [configured, init, TWO_PI, half_bladeAngle]

theorem configured_baseEdge (n : ℤ) (r : ℝ) :
    (configured n r).baseEdge =
      ⟨Real.cos (2 * π / (n : ℝ)) - 1, Real.sin (2 * π / (n : ℝ))⟩ := by
  simp only [configured, init, TWO_PI, PI, half_bladeAngle, Vec2f.scale]
  have h : 2 * π / (n : ℝ) = 2 * (π / (n : ℝ)) := by ring
  rw [h, Real.cos_two_mul, Real.sin_two_mul]
  congr 1
  · have := Real.sin_sq_add_cos_sq (π / (n : ℝ))
    nlinarith
  · ring

/-- cosine at an odd multiple of `π/n` never exceeds the cosine at `π/n`. -/
theorem cos_odd_mul_le (n : ℤ) (hn : 1 ≤ n) (m : ℤ) :
    Real.cos ((2 * (m : ℝ) + 1) * (π / (n : ℝ))) ≤ Real.cos (π / (n : ℝ)) := by
  have hnR : (0 : ℝ) < (n : ℝ) := by exact_mod_cast (by omega : 0 < n)
  have hpn : 0 < π / (n : ℝ) := div_pos Real.pi_pos hnR
  obtain ⟨q, t, hq, hq0, hq1⟩ : ∃ q t : ℤ, 2 * m + 1 = q + 2 * n * t ∧ 1 ≤ q ∧ q ≤ 2 * n - 1 := by
    refine ⟨(2 * m + 1) % (2 * n), (2 * m + 1) / (2 * n), ?_, ?_, ?_⟩
    · rw [Int.emod_add_ediv]
    · have h1 := Int.emod_nonneg (2 * m + 1) (by omega : 2 * n ≠ 0)
      have h2 : (2 * m + 1) % (2 * n) ≠ 0 := by
        intro h
        have := Int.emod_emod_of_dvd (2 * m + 1) (⟨n, rfl⟩ : (2 : ℤ) ∣ 2 * n)
        omega
      omega
    · have h1 := Int.emod_lt_of_pos (2 * m + 1) (by omega : 0 < 2 * n)
      omega
  have hR : 2 * (m : ℝ) + 1 = (q : ℝ) + 2 * (n : ℝ) * (t : ℝ) := by exact_mod_cast hq
  have hcos : Real.cos ((2 * (m : ℝ) + 1) * (π / (n : ℝ))) = Real.cos ((q : ℝ) * (π / (n : ℝ))) := by
    rw [hR]
    have : ((q : ℝ) + 2 * (n : ℝ) * (t : ℝ)) * (π / (n : ℝ)) = (q : ℝ) * (π / (n : ℝ)) + (t : ℝ) * (2 * π) := by
      field_simp
      ring
    rw [this, Real.cos_add_int_mul_two_pi]
  rw [hcos]
  have hq0R : (1 : ℝ) ≤ (q : ℝ) := by exact_mod_cast hq0
  have hq1R : (q : ℝ) ≤ 2 * (n : ℝ) - 1 := by exact_mod_cast hq1
  have hnpi : (n : ℝ) * (π / (n : ℝ)) = π := by field_simp
  by_cases hqn : q ≤ n
  · have hqnR : (q : ℝ) ≤ (n : ℝ) := by exact_mod_cast hqn
    apply Real.cos_le_cos_of_nonneg_of_le_pi hpn.le
    · calc (q : ℝ) * (π / (n : ℝ)) ≤ (n : ℝ) * (π / (n : ℝ)) :=
          mul_le_mul_of_nonneg_right hqnR hpn.le
        _ = π := hnpi
    · calc π / (n : ℝ) = 1 * (π / (n : ℝ)) := (one_mul _).symm
        _ ≤ (q : ℝ) * (π / (n : ℝ)) := mul_le_mul_of_nonneg_right hq0R hpn.le
  · have hqnR : (n : ℝ) ≤ (q : ℝ) := by exact_mod_cast (by omega : n ≤ q)
    have h2 : Real.cos ((q : ℝ) * (π / (n : ℝ))) = Real.cos ((2 * (n : ℝ) - (q : ℝ)) * (π / (n : ℝ))) := by
      have : (2 * (n : ℝ) - (q : ℝ)) * (π / (n : ℝ)) = 2 * π - (q : ℝ) * (π / (n : ℝ)) := by
        rw [sub_mul, mul_assoc, hnpi]
      rw [this, Real.cos_two_pi_sub]
    rw [h2]
    apply Real.cos_le_cos_of_nonneg_of_le_pi hpn.le
    · calc (2 * (n : ℝ) - (q : ℝ)) * (π / (n : ℝ)) ≤ (n : ℝ) * (π / (n : ℝ)) :=
          mul_le_mul_of_nonneg_right (by linarith) hpn.le
        _ = π := hnpi
    · calc π / (n : ℝ) = 1 * (π / (n : ℝ)) := (one_mul _).symm
        _ ≤ (2 * (n : ℝ) - (q : ℝ)) * (π / (n : ℝ)) :=
          mul_le_mul_of_nonneg_right (by linarith) hpn.le

/-! ## The two branches of the membership test -/

theorem evaluate_eq (t : BladeTexture) (uv : Vec2f) :
    evaluate t uv = if uv.sum = 0 then Vec3f.broadcast 1
      else if edgeValue t uv > 0 then Vec3f.broadcast 0 else Vec3f.broadcast 1 := rfl

theorem pdf_eq (t : BladeTexture) (uv : Vec2f) :
    pdf t uv = if uv.sum = 0 then 1 / t.area
      else if edgeValue t uv > 0 then 0 else 1 / t.area := rfl

theorem broadcast_zero_ne_one : Vec3f.broadcast 0 ≠ Vec3f.broadcast 1 := by
  intro h
  have := congrArg Vec3f.x h
  simp [Vec3f.broadcast] at this

theorem contains_iff (t : BladeTexture) (uv : Vec2f) :
    contains t uv ↔ (uv.sum = 0 ∨ edgeValue t uv ≤ 0) := by
  unfold contains
  rw [evaluate_eq]
  by_cases h0 : uv.sum = 0
  · simp [h0]
  · by_cases h1 : edgeValue t uv > 0
    · simp [h0, h1, broadcast_zero_ne_one]
    · simp only [h0, h1, if_false, false_or, true_iff]
      exact not_lt.mp h1

theorem edgeValue_eq (t : BladeTexture) (uv : Vec2f) :
    edgeValue t uv =
      t.baseNormal.x * ((uv.x * 2 - 1) * Real.cos (-((foldIndex t uv : ℝ) * t.bladeAngle + t.angle))
          - (uv.y * 2 - 1) * Real.sin (-((foldIndex t uv : ℝ) * t.bladeAngle + t.angle)) - 1)
        + t.baseNormal.y * ((uv.y * 2 - 1) * Real.cos (-((foldIndex t uv : ℝ) * t.bladeAngle + t.angle))
          + (uv.x * 2 - 1) * Real.sin (-((foldIndex t uv : ℝ) * t.bladeAngle + t.angle))) := by
  simp only [edgeValue, foldIndex, sub_zero]
theorem cos_pi_div_nonneg (n : ℤ) (hn : 2 ≤ n) : 0 ≤ Real.cos (π / (n : ℝ)) := by
  have hnR : (2 : ℝ) ≤ (n : ℝ) := by exact_mod_cast hn
  apply Real.cos_nonneg_of_neg_pi_div_two_le_of_le
  · have : 0 ≤ π / (n : ℝ) := div_nonneg Real.pi_pos.le (by linarith)
    linarith [Real.pi_pos]
  · apply div_le_div_of_nonneg_left Real.pi_pos.le (by norm_num) hnR

/-- The folded image of a point of the canonical wedge triangle passes the
edge test, whatever whole number of sectors it is turned by. -/
theorem wedge_point_edge_le (n : ℤ) (hn : 2 ≤ n) (d : ℤ) (s v φ ψ : ℝ)
    (hs0 : 0 ≤ s) (hs1 : s ≤ 1) (hv0 : 0 ≤ v) (hv1 : v ≤ 1)
    (hd : φ + ψ = (d : ℝ) * (2 * π / (n : ℝ))) :
    Real.cos (π / (n : ℝ)) *
        ((s * ((1 - v) * Real.cos (2 * π / (n : ℝ)) + v) * Real.cos ψ
            - s * (1 - v) * Real.sin (2 * π / (n : ℝ)) * Real.sin ψ) * Real.cos φ
          - (s * (1 - v) * Real.sin (2 * π / (n : ℝ)) * Real.cos ψ
            + s * ((1 - v) * Real.cos (2 * π / (n : ℝ)) + v) * Real.sin ψ) * Real.sin φ - 1)
      + Real.sin (π / (n : ℝ)) *
        ((s * (1 - v) * Real.sin (2 * π / (n : ℝ)) * Real.cos ψ
            + s * ((1 - v) * Real.cos (2 * π / (n : ℝ)) + v) * Real.sin ψ) * Real.cos φ
          + (s * ((1 - v) * Real.cos (2 * π / (n : ℝ)) + v) * Real.cos ψ
            - s * (1 - v) * Real.sin (2 * π / (n : ℝ)) * Real.sin ψ) * Real.sin φ) ≤ 0 := by
  set A := π / (n : ℝ) with hA
  have ha : 2 * π / (n : ℝ) = A + A := by rw [hA]; ring
  have h1 : Real.cos (A + A) * Real.cos A + Real.sin (A + A) * Real.sin A = Real.cos A := by
    have := Real.cos_sub (A + A) A
    rw [add_sub_cancel_right] at this
    linarith
  have h2 : Real.sin (A + A) * Real.cos A - Real.cos (A + A) * Real.sin A = Real.sin A := by
    have := Real.sin_sub (A + A) A
    rw [add_sub_cancel_right] at this
    linarith
  have hB : Real.cos (φ + ψ + A) ≤ Real.cos A := by
    have := cos_odd_mul_le n (by omega) d
    have e : φ + ψ + A = (2 * (d : ℝ) + 1) * (π / (n : ℝ)) := by rw [hd, hA]; ring
    rw [e]; exact this
  have hC : Real.cos (φ + ψ - A) ≤ Real.cos A := by
    have := cos_odd_mul_le n (by omega) (d - 1)
    have e : φ + ψ - A = (2 * ((d - 1 : ℤ) : ℝ) + 1) * (π / (n : ℝ)) := by
      rw [hd, hA]; push_cast; ring
    rw [e]; exact this
  have hc0 : 0 ≤ Real.cos A := cos_pi_div_nonneg n hn
  rw [ha]
  have key : Real.cos A *
        ((s * ((1 - v) * Real.cos (A + A) + v) * Real.cos ψ
            - s * (1 - v) * Real.sin (A + A) * Real.sin ψ) * Real.cos φ
          - (s * (1 - v) * Real.sin (A + A) * Real.cos ψ
            + s * ((1 - v) * Real.cos (A + A) + v) * Real.sin ψ) * Real.sin φ - 1)
      + Real.sin A *
        ((s * (1 - v) * Real.sin (A + A) * Real.cos ψ
            + s * ((1 - v) * Real.cos (A + A) + v) * Real.sin ψ) * Real.cos φ
          + (s * ((1 - v) * Real.cos (A + A) + v) * Real.cos ψ
            - s * (1 - v) * Real.sin (A + A) * Real.sin ψ) * Real.sin φ)
      = s * ((1 - v) * Real.cos (φ + ψ + A) + v * Real.cos (φ + ψ - A)) - Real.cos A := by
    rw [Real.cos_add (φ + ψ) A, Real.cos_sub (φ + ψ) A, Real.cos_add φ ψ, Real.sin_add φ ψ]
    linear_combination
      (s * (1 - v) * (Real.cos φ * Real.cos ψ - Real.sin φ * Real.sin ψ)) * h1
        - (s * (1 - v) * (Real.sin φ * Real.cos ψ + Real.cos φ * Real.sin ψ)) * h2
  rw [key]
  have h3 : (1 - v) * Real.cos (φ + ψ + A) + v * Real.cos (φ + ψ - A) ≤ Real.cos A := by
    nlinarith [mul_le_mul_of_nonneg_left hB (sub_nonneg.mpr hv1),
      mul_le_mul_of_nonneg_left hC hv0]
  nlinarith [mul_le_mul_of_nonneg_left h3 hs0, mul_nonneg (sub_nonneg.mpr hs1) hc0]

/-! ## Polar form -/

theorem atan2_zero_zero : atan2 0 0 = 0 := by
  have : (⟨0, 0⟩ : ℂ) = 0 := rfl
  rw [atan2, this, Complex.arg_zero]

theorem abs_mk (x y : ℝ) : Complex.abs ⟨x, y⟩ = Real.sqrt (x ^ 2 + y ^ 2) := by
  rw [Complex.abs_apply, Complex.normSq_mk]
  congr 1
  ring

/-- Polar form of a point: radius times cosine of `atan2` is the abscissa. -/
theorem polar_x (x y : ℝ) : Real.sqrt (x ^ 2 + y ^ 2) * Real.cos (atan2 y x) = x := by
  by_cases h : (⟨x, y⟩ : ℂ) = 0
  · have hx : x = 0 := congrArg Complex.re h
    have hy : y = 0 := congrArg Complex.im h
    subst hx; subst hy
    simp
  · have hpos : 0 < Complex.abs ⟨x, y⟩ := Complex.abs.pos h
    rw [atan2, Complex.cos_arg h, ← abs_mk]
    field_simp

theorem polar_y (x y : ℝ) : Real.sqrt (x ^ 2 + y ^ 2) * Real.sin (atan2 y x) = y := by
  by_cases h : (⟨x, y⟩ : ℂ) = 0
  · have hx : x = 0 := congrArg Complex.re h
    have hy : y = 0 := congrArg Complex.im h
    subst hx; subst hy
    simp
  · have hpos : 0 < Complex.abs ⟨x, y⟩ := Complex.abs.pos h
    rw [atan2, Complex.sin_arg, ← abs_mk]
    field_simp

/-- The edge value in polar form: with `ρ` the distance of the centred point
from the origin and `θ` its polar angle folded into `[0, bladeAngle)`, the
edge value is `ρ cos (θ - π/n) - cos (π/n)`. -/
theorem edgeValue_polar (n : ℤ) (hn : n ≠ 0) (r : ℝ) (uv : Vec2f) :
    edgeValue (configured n r) uv =
      Real.sqrt ((uv.x * 2 - 1) ^ 2 + (uv.y * 2 - 1) ^ 2)
          * Real.cos (2 * π / (n : ℝ)
              * Int.fract ((atan2 (uv.y * 2 - 1) (uv.x * 2 - 1) - r) / (2 * π / (n : ℝ)))
              - π / (n : ℝ))
        - Real.cos (π / (n : ℝ)) := by
  have hnR : (n : ℝ) ≠ 0 := by exact_mod_cast hn
  have ha : 2 * π / (n : ℝ) ≠ 0 := div_ne_zero (by positivity) hnR
  have hx := polar_x (uv.x * 2 - 1) (uv.y * 2 - 1)
  have hy := polar_y (uv.x * 2 - 1) (uv.y * 2 - 1)
  rw [edgeValue_eq]
  simp only [configured_baseNormal, configured_angle, configured_bladeAngle]
  set α := atan2 (uv.y * 2 - 1) (uv.x * 2 - 1) with hα
  set ρ := Real.sqrt ((uv.x * 2 - 1) ^ 2 + (uv.y * 2 - 1) ^ 2) with hρ
  set q := foldIndex (configured n r) uv with hq
  set φ := -((q : ℝ) * (2 * π / (n : ℝ)) + r) with hφ
  have hfr : 2 * π / (n : ℝ) * Int.fract ((α - r) / (2 * π / (n : ℝ))) = α + φ := by
    have hq' : (q : ℝ) = ((⌊(α - r) / (2 * π / (n : ℝ))⌋ : ℤ) : ℝ) := by
      rw [hq]; rfl
    rw [Int.fract, mul_sub, mul_div_cancel₀ _ ha, hφ, hq']
    ring
  rw [hfr]
  have e : α + φ - π / (n : ℝ) = (α + φ) - π / (n : ℝ) := rfl
  rw [Real.cos_sub, Real.cos_add, Real.sin_add]
  linear_combination
    (-(Real.cos (π / (n : ℝ)) * Real.cos φ + Real.sin (π / (n : ℝ)) * Real.sin φ)) * hx
      - (Real.sin (π / (n : ℝ)) * Real.cos φ - Real.cos (π / (n : ℝ)) * Real.sin φ) * hy

/-! ## Samples lie in the polygon -/

/-- The sample in centred coordinates: the wedge point turned by the wedge angle. -/
theorem sample_centred (n : ℤ) (r u v : ℝ) :
    (sample (configured n r) ⟨u, v⟩).x * 2 - 1 =
        Real.sqrt (u * n - truncToInt (u * n)) * ((1 - v) * Real.cos (2 * π / (n : ℝ)) + v)
            * Real.cos (r + truncToInt (u * n) * (2 * π / (n : ℝ)))
          - Real.sqrt (u * n - truncToInt (u * n)) * (1 - v) * Real.sin (2 * π / (n : ℝ))
            * Real.sin (r + truncToInt (u * n) * (2 * π / (n : ℝ)))
      ∧ (sample (configured n r) ⟨u, v⟩).y * 2 - 1 =
        Real.sqrt (u * n - truncToInt (u * n)) * (1 - v) * Real.sin (2 * π / (n : ℝ))
            * Real.cos (r + truncToInt (u * n) * (2 * π / (n : ℝ)))
          + Real.sqrt (u * n - truncToInt (u * n)) * ((1 - v) * Real.cos (2 * π / (n : ℝ)) + v)
            * Real.sin (r + truncToInt (u * n) * (2 * π / (n : ℝ))) := by
  simp only [sample, configured_baseEdge, configured_numBlades, configured_angle,
    configured_bladeAngle, Vec2f.scale, Vec2f.addScalar]
  constructor <;> ring

theorem truncToInt_of_nonneg (x : ℝ) (hx : 0 ≤ x) : truncToInt x = ⌊x⌋ := by
  simp [truncToInt, hx]

theorem sqrt_frac_bounds (x : ℝ) (hx : 0 ≤ x) :
    0 ≤ Real.sqrt (x - truncToInt x) ∧ Real.sqrt (x - truncToInt x) < 1 := by
  rw [truncToInt_of_nonneg x hx]
  refine ⟨Real.sqrt_nonneg _, ?_⟩
  have h1 : x - ⌊x⌋ < 1 := by linarith [Int.lt_floor_add_one x]
  calc Real.sqrt (x - ⌊x⌋) < Real.sqrt 1 :=
        Real.sqrt_lt_sqrt (by linarith [Int.floor_le x]) h1
    _ = 1 := Real.sqrt_one

theorem sample_edge_le (n : ℤ) (hn : 2 ≤ n) (r u v : ℝ)
    (hu0 : 0 ≤ u) (hv0 : 0 ≤ v) (hv1 : v ≤ 1) :
    edgeValue (configured n r) (sample (configured n r) ⟨u, v⟩) ≤ 0 := by
  have hn0 : (0 : ℝ) ≤ (n : ℝ) := by exact_mod_cast (by omega : 0 ≤ n)
  obtain ⟨hs0, hs1⟩ := sqrt_frac_bounds (u * n) (mul_nonneg hu0 hn0)
  obtain ⟨hx, hy⟩ := sample_centred n r u v
  rw [edgeValue_eq]
  simp only [hx, hy, configured_baseNormal, configured_angle, configured_bladeAngle]
  refine wedge_point_edge_le n hn
    (truncToInt (u * n) - foldIndex (configured n r) (sample (configured n r) ⟨u, v⟩))
    _ v _ _ hs0 hs1.le hv0 hv1 ?_
  push_cast
  ring

/-! ## Positivity of the area, and the density in terms of membership -/

theorem bladeAngle_bounds (n : ℤ) (hn : 3 ≤ n) :
    0 < 2 * π / (n : ℝ) ∧ 2 * π / (n : ℝ) < π := by
  have hnR : (3 : ℝ) ≤ (n : ℝ) := by exact_mod_cast hn
  have hpos : (0 : ℝ) < (n : ℝ) := by linarith
  refine ⟨div_pos (by positivity) hpos, ?_⟩
  rw [div_lt_iff₀ hpos]
  nlinarith [Real.pi_pos]

theorem configured_area_pos (n : ℤ) (hn : 3 ≤ n) (r : ℝ) : 0 < (configured n r).area := by
  have hnR : (3 : ℝ) ≤ (n : ℝ) := by exact_mod_cast hn
  obtain ⟨h0, h1⟩ := bladeAngle_bounds n hn
  rw [configured_area]
  have := Real.sin_pos_of_pos_of_lt_pi h0 h1
  positivity

theorem cos_pi_div_pos (n : ℤ) (hn : 3 ≤ n) : 0 < Real.cos (π / (n : ℝ)) := by
  have hnR : (3 : ℝ) ≤ (n : ℝ) := by exact_mod_cast hn
  have hpos : (0 : ℝ) < (n : ℝ) := by linarith
  apply Real.cos_pos_of_mem_Ioo
  constructor
  · have : 0 < π / (n : ℝ) := div_pos Real.pi_pos hpos
    linarith [Real.pi_pos]
  · rw [div_lt_div_iff₀ hpos (by norm_num)]
    nlinarith [Real.pi_pos]

theorem pdf_of_contains (t : BladeTexture) (uv : Vec2f) (h : contains t uv) :
    pdf t uv = 1 / t.area := by
  rw [pdf_eq]
  rcases (contains_iff t uv).mp h with h0 | h1
  · simp [h0]
  · by_cases h0 : uv.sum = 0
    · simp [h0]
    · simp [h0, not_lt.mpr h1]

theorem pdf_of_not_contains (t : BladeTexture) (uv : Vec2f) (h : ¬ contains t uv) :
    pdf t uv = 0 := by
  rw [pdf_eq]
  rw [contains_iff, not_or, not_le] at h
  simp [h.1, h.2]

theorem contains_sample_of_two_le (n : ℤ) (hn : 2 ≤ n) (r u v : ℝ)
    (hu0 : 0 ≤ u) (hv0 : 0 ≤ v) (hv1 : v ≤ 1) :
    contains (configured n r) (sample (configured n r) ⟨u, v⟩) :=
  (contains_iff _ _).mpr (Or.inr (sample_edge_le n hn r u v hu0 hv0 hv1))

/-! ## Points outside the circumcircle, the centre -/

/-- Folding never brings the polar angle further than half a sector from the
middle of the canonical wedge. -/
theorem cos_fold_ge (n : ℤ) (hn : 1 ≤ n) (x : ℝ) :
    Real.cos (π / (n : ℝ)) ≤ Real.cos (2 * π / (n : ℝ) * Int.fract x - π / (n : ℝ)) := by
  have hnR : (1 : ℝ) ≤ (n : ℝ) := by exact_mod_cast hn
  have hpos : (0 : ℝ) < (n : ℝ) := by linarith
  have hA : 0 < π / (n : ℝ) := div_pos Real.pi_pos hpos
  have hAle : π / (n : ℝ) ≤ π := div_le_self Real.pi_pos.le hnR
  have h0 := Int.fract_nonneg x
  have h1 := Int.fract_lt_one x
  have e : 2 * π / (n : ℝ) = 2 * (π / (n : ℝ)) := by ring
  rw [← Real.cos_abs (2 * π / (n : ℝ) * Int.fract x - π / (n : ℝ))]
  apply Real.cos_le_cos_of_nonneg_of_le_pi (abs_nonneg _) hAle
  rw [abs_le, e]
  constructor <;> nlinarith

theorem edgeValue_pos_of_norm_gt_one (n : ℤ) (hn : 3 ≤ n) (r : ℝ) (uv : Vec2f)
    (hnorm : 1 < Real.sqrt ((uv.x * 2 - 1) ^ 2 + (uv.y * 2 - 1) ^ 2)) :
    0 < edgeValue (configured n r) uv := by
  rw [edgeValue_polar n (by omega) r uv]
  have hc := cos_pi_div_pos n hn
  have hf := cos_fold_ge n (by omega)
    ((atan2 (uv.y * 2 - 1) (uv.x * 2 - 1) - r) / (2 * π / (n : ℝ)))
  nlinarith

theorem edgeValue_centre (n : ℤ) (r : ℝ) :
    edgeValue (configured n r) ⟨0.5, 0.5⟩ = -Real.cos (π / (n : ℝ)) := by
  rw [edgeValue_eq]
  simp only [configured_baseNormal]
  norm_num

theorem contains_zero (t : BladeTexture) : contains t ⟨0, 0⟩ :=
  (contains_iff _ _).mpr (Or.inl (by simp [Vec2f.sum]))

/-! ## Turning a point by whole sectors -/

/-- Turning a point about the origin adds the turn to its polar angle, up to
a whole number of full turns. -/
theorem atan2_rotate (x y θ : ℝ) (h : x ^ 2 + y ^ 2 ≠ 0) :
    ∃ m : ℤ, atan2 (y * Real.cos θ + x * Real.sin θ) (x * Real.cos θ - y * Real.sin θ)
      = atan2 y x + θ + 2 * π * m := by
  have hρ : Real.sqrt (x ^ 2 + y ^ 2) ≠ 0 := by
    rw [Ne, Real.sqrt_eq_zero (by positivity)]
    exact h
  have hn : (x * Real.cos θ - y * Real.sin θ) ^ 2 + (y * Real.cos θ + x * Real.sin θ) ^ 2
      = x ^ 2 + y ^ 2 := by
    have := Real.sin_sq_add_cos_sq θ
    linear_combination (x ^ 2 + y ^ 2) * this
  have hx := polar_x x y
  have hy := polar_y x y
  have hx' := polar_x (x * Real.cos θ - y * Real.sin θ) (y * Real.cos θ + x * Real.sin θ)
  have hy' := polar_y (x * Real.cos θ - y * Real.sin θ) (y * Real.cos θ + x * Real.sin θ)
  rw [hn] at hx' hy'
  set α := atan2 y x
  set β := atan2 (y * Real.cos θ + x * Real.sin θ) (x * Real.cos θ - y * Real.sin θ)
  set ρ := Real.sqrt (x ^ 2 + y ^ 2)
  have hcos : Real.cos β = Real.cos (α + θ) := by
    apply mul_left_cancel₀ hρ
    rw [hx', Real.cos_add]
    linear_combination (-Real.cos θ) * hx + Real.sin θ * hy
  have hsin : Real.sin β = Real.sin (α + θ) := by
    apply mul_left_cancel₀ hρ
    rw [hy', Real.sin_add]
    linear_combination (-Real.cos θ) * hy - Real.sin θ * hx
  obtain ⟨m, hm⟩ := Real.Angle.angle_eq_iff_two_pi_dvd_sub.mp (Real.Angle.cos_sin_inj hcos hsin)
  exact ⟨m, by linarith⟩

theorem cross_adjacent (θ a : ℝ) :
    (0.5 + 0.5 * Real.cos θ - 0.5) * (0.5 + 0.5 * Real.sin (θ + a) - 0.5)
      - (0.5 + 0.5 * Real.cos (θ + a) - 0.5) * (0.5 + 0.5 * Real.sin θ - 0.5)
      = 0.25 * Real.sin a := by
  rw [Real.sin_add, Real.cos_add]
  have := Real.sin_sq_add_cos_sq θ
  linear_combination (0.25 * Real.sin a) * this

theorem wedge_triangleArea (n : ℤ) (hn : 3 ≤ n) (r : ℝ) (k : ℤ) :
    triangleArea ⟨0.5, 0.5⟩ (polygonVertex (configured n r) k)
        (polygonVertex (configured n r) (k + 1))
      = 0.125 * Real.sin (2 * π / (n : ℝ)) := by
  obtain ⟨h0, h1⟩ := bladeAngle_bounds n hn
  have hs := Real.sin_pos_of_pos_of_lt_pi h0 h1
  simp only [triangleArea, polygonVertex, configured_angle, configured_bladeAngle]
  have e : r + ((k + 1 : ℤ) : ℝ) * (2 * π / (n : ℝ))
      = (r + (k : ℝ) * (2 * π / (n : ℝ))) + 2 * π / (n : ℝ) := by push_cast; ring
  rw [e]
  set θ := r + (k : ℝ) * (2 * π / (n : ℝ))
  set a := 2 * π / (n : ℝ)
  rw [cross_adjacent θ a, abs_of_pos (by positivity)]
  ring

theorem polygonVertex_dist (t : BladeTexture) (k : ℤ) :
    Real.sqrt (((polygonVertex t k).x - 0.5) ^ 2 + ((polygonVertex t k).y - 0.5) ^ 2) = 0.5 := by
  simp only [polygonVertex]
  have h := Real.sin_sq_add_cos_sq (t.angle + (k : ℝ) * t.bladeAngle)
  have e : (0.5 + 0.5 * Real.cos (t.angle + (k : ℝ) * t.bladeAngle) - 0.5) ^ 2
      + (0.5 + 0.5 * Real.sin (t.angle + (k : ℝ) * t.bladeAngle) - 0.5) ^ 2 = 0.5 ^ 2 := by
    linear_combination 0.25 * h
  rw [e, Real.sqrt_sq (by norm_num)]

/-! ## Wedge selection and the Jacobian of `sample` -/

theorem blade_eq_iff (n : ℤ) (hn : 1 ≤ n) (k : ℤ) (u : ℝ) (hu0 : 0 ≤ u) :
    truncToInt (u * (n : ℝ)) = k ↔ (k : ℝ) / (n : ℝ) ≤ u ∧ u < ((k : ℝ) + 1) / (n : ℝ) := by
  have hnR : (0 : ℝ) < (n : ℝ) := by exact_mod_cast (by omega : 0 < n)
  rw [truncToInt_of_nonneg _ (mul_nonneg hu0 hnR.le), Int.floor_eq_iff, div_le_iff₀ hnR,
    lt_div_iff₀ hnR]

/-- Inside strip `k` the wedge index is `k` all around the point. -/
theorem blade_eventually (n : ℤ) (hn : 1 ≤ n) (k : ℤ) (hk0 : 0 ≤ k) (u : ℝ)
    (h1 : (k : ℝ) / (n : ℝ) < u) (h2 : u < ((k : ℝ) + 1) / (n : ℝ)) :
    ∀ᶠ x in nhds u, truncToInt (x * (n : ℝ)) = k := by
  have hnR : (0 : ℝ) < (n : ℝ) := by exact_mod_cast (by omega : 0 < n)
  have hk0R : (0 : ℝ) ≤ (k : ℝ) := by exact_mod_cast hk0
  filter_upwards [Ioo_mem_nhds h1 h2] with x hx
  have hx0 : 0 ≤ x := le_trans (div_nonneg hk0R hnR.le) hx.1.le
  exact (blade_eq_iff n hn k x hx0).mpr ⟨hx.1.le, hx.2⟩

theorem sample_x_eq (n : ℤ) (r u v : ℝ) :
    (sample (configured n r) ⟨u, v⟩).x =
      (Real.sqrt (u * n - truncToInt (u * n)) * ((1 - v) * Real.cos (2 * π / (n : ℝ)) + v)
            * Real.cos (r + truncToInt (u * n) * (2 * π / (n : ℝ)))
          - Real.sqrt (u * n - truncToInt (u * n)) * (1 - v) * Real.sin (2 * π / (n : ℝ))
            * Real.sin (r + truncToInt (u * n) * (2 * π / (n : ℝ))) + 1) / 2 := by
  have := (sample_centred n r u v).1
  linarith

theorem sample_y_eq (n : ℤ) (r u v : ℝ) :
    (sample (configured n r) ⟨u, v⟩).y =
      (Real.sqrt (u * n - truncToInt (u * n)) * (1 - v) * Real.sin (2 * π / (n : ℝ))
            * Real.cos (r + truncToInt (u * n) * (2 * π / (n : ℝ)))
          + Real.sqrt (u * n - truncToInt (u * n)) * ((1 - v) * Real.cos (2 * π / (n : ℝ)) + v)
            * Real.sin (r + truncToInt (u * n) * (2 * π / (n : ℝ))) + 1) / 2 := by
  have := (sample_centred n r u v).2
  linarith

theorem hasDerivAt_sqrt_strip (n : ℝ) (k : ℝ) (u : ℝ) (h : 0 < u * n - k) :
    HasDerivAt (fun x : ℝ => Real.sqrt (x * n - k)) (n / (2 * Real.sqrt (u * n - k))) u := by
  have h1 : HasDerivAt (fun x : ℝ => x * n - k) n u := by
    simpa using ((hasDerivAt_id u).mul_const n).sub_const k
  exact h1.sqrt h.ne'

/-- The determinant of the matrix of partial derivatives of `sample`. -/
theorem jacobian_det (n s v ca sa C S : ℝ) (hs : s ≠ 0) (hCS : S ^ 2 + C ^ 2 = 1) :
    (n / (2 * s) * (((1 - v) * ca + v) * C - (1 - v) * sa * S) / 2)
        * (s * (-sa * C + (1 - ca) * S) / 2)
      - (s * ((1 - ca) * C + sa * S) / 2)
        * (n / (2 * s) * ((1 - v) * sa * C + ((1 - v) * ca + v) * S) / 2)
      = -(0.125 * n * sa) := by
  have key : n / (2 * s) * s = n / 2 := by
    field_simp
    ring
  have e : (n / (2 * s) * (((1 - v) * ca + v) * C - (1 - v) * sa * S) / 2)
        * (s * (-sa * C + (1 - ca) * S) / 2)
      - (s * ((1 - ca) * C + sa * S) / 2)
        * (n / (2 * s) * ((1 - v) * sa * C + ((1 - v) * ca + v) * S) / 2)
      = (n / (2 * s) * s) * (-sa * (S ^ 2 + C ^ 2)) / 4 := by ring
  rw [e, key, hCS]
  ring

/-! ## The fold recovers the wedge: an inverse of `sample` -/

theorem atan2_bounds (y x : ℝ) : -π < atan2 y x ∧ atan2 y x ≤ π :=
  ⟨Complex.neg_pi_lt_arg _, Complex.arg_le_pi _⟩

/-- A point strictly between the two sides of the canonical wedge has its polar
angle strictly between `0` and the sector angle. -/
theorem wedge_atan2_bounds (a lam mu : ℝ) (ha0 : 0 < a) (ha1 : a < π)
    (hlam : 0 < lam) (hmu : 0 < mu) :
    0 < atan2 (mu * Real.sin a) (mu * Real.cos a + lam)
      ∧ atan2 (mu * Real.sin a) (mu * Real.cos a + lam) < a := by
  have hsa : 0 < Real.sin a := Real.sin_pos_of_pos_of_lt_pi ha0 ha1
  have hx := polar_x (mu * Real.cos a + lam) (mu * Real.sin a)
  have hy := polar_y (mu * Real.cos a + lam) (mu * Real.sin a)
  obtain ⟨hb0, hb1⟩ := atan2_bounds (mu * Real.sin a) (mu * Real.cos a + lam)
  set θ := atan2 (mu * Real.sin a) (mu * Real.cos a + lam)
  set ρ := Real.sqrt ((mu * Real.cos a + lam) ^ 2 + (mu * Real.sin a) ^ 2)
  have hρ0 : 0 ≤ ρ := Real.sqrt_nonneg _
  have hy0 : 0 < mu * Real.sin a := mul_pos hmu hsa
  have hρ : 0 < ρ := by
    rcases hρ0.eq_or_lt with h | h
    · rw [← h, zero_mul] at hy
      linarith
    · exact h
  have hsinθ : 0 < Real.sin θ := by
    have : 0 < ρ * Real.sin θ := by rw [hy]; exact hy0
    exact (mul_pos_iff_of_pos_left hρ).mp this
  have hθ0 : 0 < θ := by
    by_contra hc
    have := Real.sin_nonpos_of_nonnpos_of_neg_pi_le (not_lt.mp hc) hb0.le
    linarith
  refine ⟨hθ0, ?_⟩
  have hsub : 0 < Real.sin (a - θ) := by
    have e : ρ * Real.sin (a - θ) = lam * Real.sin a := by
      rw [Real.sin_sub]
      have := Real.sin_sq_add_cos_sq a
      linear_combination Real.sin a * hx - Real.cos a * hy
    have : 0 < ρ * Real.sin (a - θ) := by rw [e]; exact mul_pos hlam hsa
    exact (mul_pos_iff_of_pos_left hρ).mp this
  by_contra hc
  have h1 : a - θ ≤ 0 := by linarith
  have h2 : -π ≤ a - θ := by linarith
  have := Real.sin_nonpos_of_nonnpos_of_neg_pi_le h1 h2
  linarith

theorem localPoint_eq (t : BladeTexture) (uv : Vec2f) :
    localPoint t uv =
      ⟨(uv.x * 2 - 1) * Real.cos (-((foldIndex t uv : ℝ) * t.bladeAngle + t.angle))
          - (uv.y * 2 - 1) * Real.sin (-((foldIndex t uv : ℝ) * t.bladeAngle + t.angle)),
        (uv.y * 2 - 1) * Real.cos (-((foldIndex t uv : ℝ) * t.bladeAngle + t.angle))
          + (uv.x * 2 - 1) * Real.sin (-((foldIndex t uv : ℝ) * t.bladeAngle + t.angle))⟩ := rfl

theorem edgeValue_eq_localPoint (t : BladeTexture) (uv : Vec2f) :
    edgeValue t uv
      = t.baseNormal.x * ((localPoint t uv).x - 1) + t.baseNormal.y * (localPoint t uv).y := by
  simp only [edgeValue, localPoint, sub_zero]

/-- Folding the turned copy of a point strictly inside the canonical wedge
finds the wedge it was turned into, up to whole turns, and gives the point
back. -/
theorem fold_of_wedge_point (n : ℤ) (hn : 3 ≤ n) (r : ℝ) (k : ℤ) (lam mu : ℝ)
    (hlam : 0 < lam) (hmu : 0 < mu) (uv : Vec2f)
    (hx : uv.x * 2 - 1
      = (mu * Real.cos (2 * π / (n : ℝ)) + lam) * Real.cos (r + (k : ℝ) * (2 * π / (n : ℝ)))
        - mu * Real.sin (2 * π / (n : ℝ)) * Real.sin (r + (k : ℝ) * (2 * π / (n : ℝ))))
    (hy : uv.y * 2 - 1
      = mu * Real.sin (2 * π / (n : ℝ)) * Real.cos (r + (k : ℝ) * (2 * π / (n : ℝ)))
        + (mu * Real.cos (2 * π / (n : ℝ)) + lam)
          * Real.sin (r + (k : ℝ) * (2 * π / (n : ℝ)))) :
    (∃ m : ℤ, foldIndex (configured n r) uv = k + m * n)
      ∧ localPoint (configured n r) uv
        = ⟨mu * Real.cos (2 * π / (n : ℝ)) + lam, mu * Real.sin (2 * π / (n : ℝ))⟩ := by
  obtain ⟨ha0, ha1⟩ := bladeAngle_bounds n hn
  have hnR : (n : ℝ) ≠ 0 := by
    have : (3 : ℝ) ≤ (n : ℝ) := by exact_mod_cast hn
    linarith
  have hsa : 0 < Real.sin (2 * π / (n : ℝ)) := Real.sin_pos_of_pos_of_lt_pi ha0 ha1
  obtain ⟨hθ0, hθ1⟩ := wedge_atan2_bounds (2 * π / (n : ℝ)) lam mu ha0 ha1 hlam hmu
  have hne : (mu * Real.cos (2 * π / (n : ℝ)) + lam) ^ 2
      + (mu * Real.sin (2 * π / (n : ℝ))) ^ 2 ≠ 0 := by
    have : 0 < (mu * Real.sin (2 * π / (n : ℝ))) ^ 2 := by positivity
    have := sq_nonneg (mu * Real.cos (2 * π / (n : ℝ)) + lam)
    linarith
  obtain ⟨m, hm⟩ := atan2_rotate (mu * Real.cos (2 * π / (n : ℝ)) + lam)
    (mu * Real.sin (2 * π / (n : ℝ))) (r + (k : ℝ) * (2 * π / (n : ℝ))) hne
  rw [← hx, ← hy] at hm
  have hfold : foldIndex (configured n r) uv = k + m * n := by
    simp only [foldIndex, configured_angle, configured_bladeAngle]
    rw [hm, Int.floor_eq_iff]
    set θ := atan2 (mu * Real.sin (2 * π / (n : ℝ))) (mu * Real.cos (2 * π / (n : ℝ)) + lam)
    have e : (θ + (r + (k : ℝ) * (2 * π / (n : ℝ))) + 2 * π * (m : ℝ) - r) / (2 * π / (n : ℝ))
        = θ / (2 * π / (n : ℝ)) + ((k + m * n : ℤ) : ℝ) := by
      push_cast
      field_simp
      ring
    rw [e]
    have h0 : 0 ≤ θ / (2 * π / (n : ℝ)) := div_nonneg hθ0.le ha0.le
    have h1 : θ / (2 * π / (n : ℝ)) < 1 := (div_lt_one ha0).mpr hθ1
    constructor <;> linarith
  refine ⟨⟨m, hfold⟩, ?_⟩
  rw [localPoint_eq, hfold]
  simp only [configured_angle, configured_bladeAngle]
  have eφ : -(((k + m * n : ℤ) : ℝ) * (2 * π / (n : ℝ)) + r)
      = -((r + (k : ℝ) * (2 * π / (n : ℝ))) + (m : ℝ) * (2 * π)) := by
    push_cast
    field_simp
    ring
  rw [eφ, Real.cos_neg, Real.sin_neg, Real.cos_add_int_mul_two_pi, Real.sin_add_int_mul_two_pi,
    hx, hy]
  have hcs := Real.sin_sq_add_cos_sq (r + (k : ℝ) * (2 * π / (n : ℝ)))
  congr 1
  · linear_combination (mu * Real.cos (2 * π / (n : ℝ)) + lam) * hcs
  · linear_combination (mu * Real.sin (2 * π / (n : ℝ))) * hcs

theorem Vec2f_ext (a b : Vec2f) (hx : a.x = b.x) (hy : a.y = b.y) : a = b := by
  cases a; cases b; simp_all

theorem floor_strip (n : ℤ) (hn : 1 ≤ n) (u : ℝ) (hu0 : 0 ≤ u) (hu1 : u < 1) :
    0 ≤ ⌊u * (n : ℝ)⌋ ∧ ⌊u * (n : ℝ)⌋ < n := by
  have hnR : (0 : ℝ) < (n : ℝ) := by exact_mod_cast (by omega : 0 < n)
  constructor
  · exact Int.floor_nonneg.mpr (mul_nonneg hu0 hnR.le)
  · rw [Int.floor_lt]
    nlinarith

/-- `unsample` undoes `sample` inside the strips. -/
theorem unsample_sample (n : ℤ) (hn : 3 ≤ n) (r u v : ℝ) (hu0 : 0 ≤ u) (hu1 : u < 1)
    (hfr : 0 < Int.fract (u * (n : ℝ))) (hv0 : 0 < v) (hv1 : v < 1) :
    unsample (configured n r) (sample (configured n r) ⟨u, v⟩) = ⟨u, v⟩ := by
  have hnR : (0 : ℝ) < (n : ℝ) := by exact_mod_cast (by omega : 0 < n)
  obtain ⟨ha0, ha1⟩ := bladeAngle_bounds n hn
  have hsa : 0 < Real.sin (2 * π / (n : ℝ)) := Real.sin_pos_of_pos_of_lt_pi ha0 ha1
  have htr : truncToInt (u * (n : ℝ)) = ⌊u * (n : ℝ)⌋ :=
    truncToInt_of_nonneg _ (mul_nonneg hu0 hnR.le)
  obtain ⟨hk0, hk1⟩ := floor_strip n (by omega) u hu0 hu1
  obtain ⟨hx, hy⟩ := sample_centred n r u v
  rw [htr] at hx hy
  set k := ⌊u * (n : ℝ)⌋ with hk
  have hfr' : u * (n : ℝ) - (k : ℝ) = Int.fract (u * (n : ℝ)) := rfl
  have hs : 0 < Real.sqrt (u * (n : ℝ) - (k : ℝ)) := by
    rw [hfr']; exact Real.sqrt_pos.mpr hfr
  set s := Real.sqrt (u * (n : ℝ) - (k : ℝ)) with hsdef
  have hs2 : s ^ 2 = u * (n : ℝ) - (k : ℝ) := by
    rw [hsdef, Real.sq_sqrt]
    rw [hfr']; exact hfr.le
  obtain ⟨⟨m, hm⟩, hL⟩ := fold_of_wedge_point n hn r k (s * v) (s * (1 - v))
    (mul_pos hs hv0) (mul_pos hs (by linarith)) (sample (configured n r) ⟨u, v⟩)
    (by rw [hx]; ring) (by rw [hy]; ring)
  have hmod : (k + m * n) % n = k := by
    rw [Int.add_mul_emod_self, Int.emod_eq_of_lt hk0 hk1]
  have hmu : s * (1 - v) * Real.sin (2 * π / (n : ℝ)) / Real.sin (2 * π / (n : ℝ))
      = s * (1 - v) := by
    field_simp
  have hsum : s * v + s * (1 - v) = s := by ring
  simp only [unsample, hL, hm, hmod, configured_bladeAngle, configured_numBlades, hmu,
    add_sub_cancel_left, hsum, hs2]
  apply Vec2f_ext
  · simp only
    field_simp
  · simp only
    field_simp

theorem cos_half_identity (n : ℤ) :
    Real.cos (π / (n : ℝ)) * Real.cos (2 * π / (n : ℝ))
      + Real.sin (π / (n : ℝ)) * Real.sin (2 * π / (n : ℝ)) = Real.cos (π / (n : ℝ)) := by
  have h := Real.cos_sub (2 * π / (n : ℝ)) (π / (n : ℝ))
  have e : 2 * π / (n : ℝ) - π / (n : ℝ) = π / (n : ℝ) := by ring
  rw [e] at h
  linarith

/-- `sample` undoes `unsample` on the points folded strictly inside the
canonical wedge triangle, and `unsample` sends them inside the strips. -/
theorem sample_unsample (n : ℤ) (hn : 3 ≤ n) (r : ℝ) (uv : Vec2f)
    (hy : 0 < (localPoint (configured n r) uv).y)
    (hx : 0 < (localPoint (configured n r) uv).x * Real.sin (2 * π / (n : ℝ))
      - (localPoint (configured n r) uv).y * Real.cos (2 * π / (n : ℝ)))
    (he : edgeValue (configured n r) uv < 0) :
    (0 < (unsample (configured n r) uv).x ∧ (unsample (configured n r) uv).x < 1
        ∧ 0 < Int.fract ((unsample (configured n r) uv).x * (n : ℝ))
        ∧ 0 < (unsample (configured n r) uv).y ∧ (unsample (configured n r) uv).y < 1)
      ∧ sample (configured n r) (unsample (configured n r) uv) = uv := by
  have hnR : (0 : ℝ) < (n : ℝ) := by exact_mod_cast (by omega : 0 < n)
  obtain ⟨ha0, ha1⟩ := bladeAngle_bounds n hn
  have hsa : 0 < Real.sin (2 * π / (n : ℝ)) := Real.sin_pos_of_pos_of_lt_pi ha0 ha1
  have hcA := cos_pi_div_pos n hn
  have hLdef := localPoint_eq (configured n r) uv
  simp only [configured_angle, configured_bladeAngle] at hLdef
  set L := localPoint (configured n r) uv with hL
  set q := foldIndex (configured n r) uv with hq
  set mu := L.y / Real.sin (2 * π / (n : ℝ)) with hmu
  set lam := L.x - mu * Real.cos (2 * π / (n : ℝ)) with hlam
  have hLy : L.y = mu * Real.sin (2 * π / (n : ℝ)) := by
    rw [hmu]; field_simp
  have hLx : L.x = mu * Real.cos (2 * π / (n : ℝ)) + lam := by
    rw [hlam]; ring
  have hmu0 : 0 < mu := div_pos hy hsa
  have hlam0 : 0 < lam := by
    have : lam * Real.sin (2 * π / (n : ℝ))
        = L.x * Real.sin (2 * π / (n : ℝ)) - L.y * Real.cos (2 * π / (n : ℝ)) := by
      rw [hLy, hLx]; ring
    have h2 : 0 < lam * Real.sin (2 * π / (n : ℝ)) := by rw [this]; exact hx
    exact (mul_pos_iff_of_pos_right hsa).mp h2
  have hs0 : 0 < lam + mu := by linarith
  have hs1 : lam + mu < 1 := by
    have e : edgeValue (configured n r) uv = (lam + mu - 1) * Real.cos (π / (n : ℝ)) := by
      rw [edgeValue_eq_localPoint, configured_baseNormal, ← hL, hLx, hLy]
      simp only
      linear_combination mu * cos_half_identity n
    rw [e] at he
    by_contra hc
    have : 0 ≤ (lam + mu - 1) * Real.cos (π / (n : ℝ)) :=
      mul_nonneg (by linarith) hcA.le
    linarith
  have hk0 : 0 ≤ q % n := Int.emod_nonneg q (by omega)
  have hk1 : q % n < n := Int.emod_lt_of_pos q (by omega)
  have hk0R : (0 : ℝ) ≤ ((q % n : ℤ) : ℝ) := by exact_mod_cast hk0
  have hk1R : ((q % n : ℤ) : ℝ) + 1 ≤ (n : ℝ) := by exact_mod_cast (by omega : q % n + 1 ≤ n)
  have hsq0 : 0 < (lam + mu) ^ 2 := by positivity
  have hsq1 : (lam + mu) ^ 2 < 1 := by nlinarith
  have hU : unsample (configured n r) uv
      = ⟨(((q % n : ℤ) : ℝ) + (lam + mu) ^ 2) / (n : ℝ), lam / (lam + mu)⟩ := by
    simp only [unsample, configured_bladeAngle, configured_numBlades]
  have hun : (((q % n : ℤ) : ℝ) + (lam + mu) ^ 2) / (n : ℝ) * (n : ℝ)
      = ((q % n : ℤ) : ℝ) + (lam + mu) ^ 2 := by
    field_simp
  have hu0 : 0 < (((q % n : ℤ) : ℝ) + (lam + mu) ^ 2) / (n : ℝ) :=
    div_pos (by linarith) hnR
  have hfloor : ⌊((q % n : ℤ) : ℝ) + (lam + mu) ^ 2⌋ = q % n := by
    rw [Int.floor_eq_iff]
    constructor <;> linarith
  rw [hU]
  refine ⟨⟨hu0, ?_, ?_, div_pos hlam0 hs0, (div_lt_one hs0).mpr (by linarith)⟩, ?_⟩
  · simp only
    rw [div_lt_one hnR]
    linarith
  · simp only
    rw [hun, Int.fract, hfloor]
    linarith
  · obtain ⟨hsx, hsy⟩ := sample_centred n r
      ((((q % n : ℤ) : ℝ) + (lam + mu) ^ 2) / (n : ℝ)) (lam / (lam + mu))
    rw [hun, truncToInt_of_nonneg _ (by linarith), hfloor, add_sub_cancel_left,
      Real.sqrt_sq hs0.le] at hsx hsy
    have hv : lam / (lam + mu) * (lam + mu) = lam := by field_simp
    have hψ : r + ((q % n : ℤ) : ℝ) * (2 * π / (n : ℝ))
        = -(-((q : ℝ) * (2 * π / (n : ℝ)) + r)) + ((-(q / n) : ℤ) : ℝ) * (2 * π) := by
      rw [Int.emod_def]
      push_cast
      field_simp
      ring
    rw [hψ, Real.cos_add_int_mul_two_pi, Real.sin_add_int_mul_two_pi, Real.cos_neg,
      Real.sin_neg] at hsx hsy
    have hLx' := congrArg Vec2f.x hLdef
    have hLy' := congrArg Vec2f.y hLdef
    simp only at hLx' hLy'
    rw [hLx] at hLx'
    rw [hLy] at hLy'
    have hcs := Real.sin_sq_add_cos_sq (-((q : ℝ) * (2 * π / (n : ℝ)) + r))
    set c := Real.cos (-((q : ℝ) * (2 * π / (n : ℝ)) + r))
    set sn := Real.sin (-((q : ℝ) * (2 * π / (n : ℝ)) + r))
    apply Vec2f_ext
    · have : (sample (configured n r)
          ⟨(((q % n : ℤ) : ℝ) + (lam + mu) ^ 2) / (n : ℝ), lam / (lam + mu)⟩).x * 2 - 1
          = uv.x * 2 - 1 := by
        rw [hsx]
        linear_combination (-(Real.cos (2 * π / (n : ℝ)) * c) + c
            - Real.sin (2 * π / (n : ℝ)) * sn) * hv
          + c * hLx' + sn * hLy' + (uv.x * 2 - 1) * hcs
      linarith
    · have : (sample (configured n r)
          ⟨(((q % n : ℤ) : ℝ) + (lam + mu) ^ 2) / (n : ℝ), lam / (lam + mu)⟩).y * 2 - 1
          = uv.y * 2 - 1 := by
        rw [hsy]
        linear_combination (-(Real.sin (2 * π / (n : ℝ)) * c) - (-(Real.cos (2 * π / (n : ℝ))) + 1) * sn) * hv
          + c * hLy' - sn * hLx' + (uv.y * 2 - 1) * hcs
      linarith

/-- The folded point in polar form: the fold keeps the distance from the
origin and brings the polar angle into `[0, bladeAngle)`. -/
theorem localPoint_polar (n : ℤ) (hn : n ≠ 0) (r : ℝ) (uv : Vec2f) :
    localPoint (configured n r) uv =
      ⟨Real.sqrt ((uv.x * 2 - 1) ^ 2 + (uv.y * 2 - 1) ^ 2)
          * Real.cos (2 * π / (n : ℝ)
              * Int.fract ((atan2 (uv.y * 2 - 1) (uv.x * 2 - 1) - r) / (2 * π / (n : ℝ)))),
        Real.sqrt ((uv.x * 2 - 1) ^ 2 + (uv.y * 2 - 1) ^ 2)
          * Real.sin (2 * π / (n : ℝ)
              * Int.fract ((atan2 (uv.y * 2 - 1) (uv.x * 2 - 1) - r) / (2 * π / (n : ℝ))))⟩ := by
  have hnR : (n : ℝ) ≠ 0 := by exact_mod_cast hn
  have ha : 2 * π / (n : ℝ) ≠ 0 := div_ne_zero (by positivity) hnR
  have hx := polar_x (uv.x * 2 - 1) (uv.y * 2 - 1)
  have hy := polar_y (uv.x * 2 - 1) (uv.y * 2 - 1)
  rw [localPoint_eq]
  simp only [configured_angle, configured_bladeAngle]
  set α := atan2 (uv.y * 2 - 1) (uv.x * 2 - 1) with hα
  set ρ := Real.sqrt ((uv.x * 2 - 1) ^ 2 + (uv.y * 2 - 1) ^ 2) with hρ
  set q := foldIndex (configured n r) uv with hq
  set φ := -((q : ℝ) * (2 * π / (n : ℝ)) + r) with hφ
  have hfr : 2 * π / (n : ℝ) * Int.fract ((α - r) / (2 * π / (n : ℝ))) = α + φ := by
    have hq' : (q : ℝ) = ((⌊(α - r) / (2 * π / (n : ℝ))⌋ : ℤ) : ℝ) := by
      rw [hq]; rfl
    rw [Int.fract, mul_sub, mul_div_cancel₀ _ ha, hφ, hq']
    ring
  rw [hfr, Real.cos_add, Real.sin_add]
  apply Vec2f_ext
  · simp only
    linear_combination (-Real.cos φ) * hx + Real.sin φ * hy
  · simp only
    linear_combination (-Real.cos φ) * hy - Real.sin φ * hx

/-- A folded point that is not strictly inside the canonical wedge lies on its
first side. -/
theorem localPoint_y_eq_zero (n : ℤ) (hn : 3 ≤ n) (r : ℝ) (uv : Vec2f)
    (h : ¬ (0 < (localPoint (configured n r) uv).y
      ∧ 0 < (localPoint (configured n r) uv).x * Real.sin (2 * π / (n : ℝ))
        - (localPoint (configured n r) uv).y * Real.cos (2 * π / (n : ℝ)))) :
    (localPoint (configured n r) uv).y = 0 := by
  obtain ⟨ha0, ha1⟩ := bladeAngle_bounds n hn
  rw [localPoint_polar n (by omega) r uv] at h ⊢
  simp only at h ⊢
  set ρ := Real.sqrt ((uv.x * 2 - 1) ^ 2 + (uv.y * 2 - 1) ^ 2) with hρ
  set f := Int.fract ((atan2 (uv.y * 2 - 1) (uv.x * 2 - 1) - r) / (2 * π / (n : ℝ))) with hf
  have hf0 : 0 ≤ f := Int.fract_nonneg _
  have hf1 : f < 1 := Int.fract_lt_one _
  have hρ0 : 0 ≤ ρ := Real.sqrt_nonneg _
  have hθ0 : 0 ≤ 2 * π / (n : ℝ) * f := mul_nonneg ha0.le hf0
  have hθ1 : 2 * π / (n : ℝ) * f < 2 * π / (n : ℝ) := by nlinarith
  have hsin0 : 0 ≤ Real.sin (2 * π / (n : ℝ) * f) :=
    Real.sin_nonneg_of_nonneg_of_le_pi hθ0 (by linarith)
  have hsub : 0 < Real.sin (2 * π / (n : ℝ) - 2 * π / (n : ℝ) * f) :=
    Real.sin_pos_of_pos_of_lt_pi (by linarith) (by linarith)
  have e : ρ * Real.cos (2 * π / (n : ℝ) * f) * Real.sin (2 * π / (n : ℝ))
      - ρ * Real.sin (2 * π / (n : ℝ) * f) * Real.cos (2 * π / (n : ℝ))
      = ρ * Real.sin (2 * π / (n : ℝ) - 2 * π / (n : ℝ) * f) := by
    rw [Real.sin_sub]; ring
  rw [e] at h
  rcases hρ0.eq_or_lt with h0 | h0
  · rw [← h0, zero_mul]
  · have h2 : 0 < ρ * Real.sin (2 * π / (n : ℝ) - 2 * π / (n : ℝ) * f) := mul_pos h0 hsub
    have h3 : ¬ 0 < ρ * Real.sin (2 * π / (n : ℝ) * f) := fun hc => h ⟨hc, h2⟩
    have h4 : 0 ≤ ρ * Real.sin (2 * π / (n : ℝ) * f) := mul_nonneg hρ0 hsin0
    linarith [not_lt.mp h3]

/-! ## Lines have no area -/

/-- A line of the plane, written in centred coordinates, has no area. -/
theorem volume_centred_line (c₁ c₂ c₃ : ℝ) (h : c₁ ≠ 0 ∨ c₂ ≠ 0) :
    volume {q : ℝ × ℝ | c₁ * (q.1 * 2 - 1) + c₂ * (q.2 * 2 - 1) = c₃} = 0 := by
  by_cases h2 : c₂ = 0
  · have h1 : c₁ ≠ 0 := by
      rcases h with h | h
      · exact h
      · exact absurd h2 h
    have hsub : {q : ℝ × ℝ | c₁ * (q.1 * 2 - 1) + c₂ * (q.2 * 2 - 1) = c₃}
        ⊆ ({(c₃ / c₁ + 1) / 2} : Set ℝ) ×ˢ (Set.univ : Set ℝ) := by
      intro q hq
      simp only [Set.mem_setOf_eq, h2, zero_mul, add_zero] at hq
      simp only [Set.mem_prod, Set.mem_singleton_iff, Set.mem_univ, and_true]
      field_simp
      linarith
    refine measure_mono_null hsub ?_
    rw [Measure.volume_eq_prod, Measure.prod_prod]
    simp
  · have hmeas : MeasurableSet {q : ℝ × ℝ | c₁ * (q.1 * 2 - 1) + c₂ * (q.2 * 2 - 1) = c₃} := by
      apply IsClosed.measurableSet
      exact isClosed_eq (by fun_prop) continuous_const
    rw [Measure.volume_eq_prod, Measure.measure_prod_null hmeas]
    apply Filter.Eventually.of_forall
    intro x
    have hsub : Set.preimage (Prod.mk x)
        {q : ℝ × ℝ | c₁ * (q.1 * 2 - 1) + c₂ * (q.2 * 2 - 1) = c₃}
        ⊆ ({((c₃ - c₁ * (x * 2 - 1)) / c₂ + 1) / 2} : Set ℝ) := by
      intro y hy
      simp only [Set.mem_preimage, Set.mem_setOf_eq] at hy
      simp only [Set.mem_singleton_iff]
      field_simp
      linarith
    exact measure_mono_null hsub (measure_singleton _)

theorem sin_or_cos_ne_zero (x : ℝ) : Real.sin x ≠ 0 ∨ Real.cos x ≠ 0 := by
  by_contra h
  push_neg at h
  have := Real.sin_sq_add_cos_sq x
  rw [h.1, h.2] at this
  norm_num at this

theorem volume_polygonBorder (n : ℤ) (r : ℝ) : volume (polygonBorder n r) = 0 := by
  refine measure_union_null (volume_centred_line 1 1 (-2) (Or.inl one_ne_zero))
    (measure_union_null ?_ ?_)
  · exact measure_iUnion_null (fun j => volume_centred_line _ _ _ (sin_or_cos_ne_zero _))
  · refine measure_iUnion_null (fun j => volume_centred_line _ _ _ ?_)
    by_contra h
    push_neg at h
    have h1 := Real.sin_sq_add_cos_sq (π / (n : ℝ))
    have h2 := Real.sin_sq_add_cos_sq (-((j : ℝ) * (2 * π / (n : ℝ)) + r))
    have : (Real.cos (π / (n : ℝ)) * Real.cos (-((j : ℝ) * (2 * π / (n : ℝ)) + r))
              + Real.sin (π / (n : ℝ)) * Real.sin (-((j : ℝ) * (2 * π / (n : ℝ)) + r))) ^ 2
        + (Real.sin (π / (n : ℝ)) * Real.cos (-((j : ℝ) * (2 * π / (n : ℝ)) + r))
              - Real.cos (π / (n : ℝ)) * Real.sin (-((j : ℝ) * (2 * π / (n : ℝ)) + r))) ^ 2
        = 1 := by
      linear_combination (Real.sin (-((j : ℝ) * (2 * π / (n : ℝ)) + r)) ^ 2
        + Real.cos (-((j : ℝ) * (2 * π / (n : ℝ)) + r)) ^ 2) * h1 + h2
    rw [h.1, h.2] at this
    norm_num at this

/-- Every accepted point off the border lines is a sample of a point inside
the strips. -/
theorem polygon_subset (n : ℤ) (hn : 3 ≤ n) (r : ℝ) :
    polygon (configured n r)
      ⊆ Set.image (sampleMap (configured n r)) (sampleDomain (configured n r))
        ∪ polygonBorder n r := by
  intro q hq
  by_cases hb : q ∈ polygonBorder n r
  · exact Or.inr hb
  left
  simp only [polygonBorder, Set.mem_union, Set.mem_setOf_eq, Set.mem_iUnion, not_or,
    not_exists] at hb
  obtain ⟨hb1, hb2, hb3⟩ := hb
  have hsum : (⟨q.1, q.2⟩ : Vec2f).sum ≠ 0 := by
    intro h
    simp only [Vec2f.sum] at h
    apply hb1
    linarith
  have hedge : edgeValue (configured n r) ⟨q.1, q.2⟩ < 0 := by
    rcases (contains_iff _ _).mp hq with h | h
    · exact absurd h hsum
    · rcases h.eq_or_lt with h0 | h0
      · exfalso
        apply hb3 (foldIndex (configured n r) ⟨q.1, q.2⟩)
        rw [edgeValue_eq] at h0
        simp only [configured_baseNormal, configured_angle, configured_bladeAngle] at h0
        linarith
      · exact h0
  have hLy : (localPoint (configured n r) ⟨q.1, q.2⟩).y ≠ 0 := by
    intro h
    apply hb2 (foldIndex (configured n r) ⟨q.1, q.2⟩)
    rw [localPoint_eq] at h
    simp only [configured_angle, configured_bladeAngle] at h
    linarith
  have hin : 0 < (localPoint (configured n r) ⟨q.1, q.2⟩).y
      ∧ 0 < (localPoint (configured n r) ⟨q.1, q.2⟩).x * Real.sin (2 * π / (n : ℝ))
        - (localPoint (configured n r) ⟨q.1, q.2⟩).y * Real.cos (2 * π / (n : ℝ)) := by
    by_contra hc
    exact hLy (localPoint_y_eq_zero n hn r _ hc)
  obtain ⟨⟨h1, h2, h3, h4, h5⟩, hs⟩ := sample_unsample n hn r ⟨q.1, q.2⟩ hin.1 hin.2 hedge
  refine ⟨((unsample (configured n r) ⟨q.1, q.2⟩).x, (unsample (configured n r) ⟨q.1, q.2⟩).y),
    ⟨h1, h2, ?_, h4, h5⟩, ?_⟩
  · rw [configured_numBlades]; exact h3
  · simp only [sampleMap]
    rw [hs]

theorem image_subset_polygon (n : ℤ) (hn : 3 ≤ n) (r : ℝ) :
    Set.image (sampleMap (configured n r)) (sampleDomain (configured n r))
      ⊆ polygon (configured n r) := by
  rintro q ⟨p, ⟨h1, _, _, h4, h5⟩, rfl⟩
  exact contains_sample_of_two_le n (by omega) r p.1 p.2 h1.le h4.le h5.le

theorem volume_stripBorder (n : ℤ) : volume (stripBorder n) = 0 :=
  measure_union_null (volume_centred_line 0 1 (-1) (Or.inr one_ne_zero))
    (measure_iUnion_null (fun _ => volume_centred_line 1 0 _ (Or.inl one_ne_zero)))

theorem unitSquare_subset (n : ℤ) (hn : 3 ≤ n) (r : ℝ) :
    Set.Ico (0 : ℝ) 1 ×ˢ Set.Ico (0 : ℝ) 1
      ⊆ sampleDomain (configured n r) ∪ stripBorder n := by
  have hnR : (0 : ℝ) < (n : ℝ) := by exact_mod_cast (by omega : 0 < n)
  rintro p ⟨⟨hu0, hu1⟩, ⟨hv0, hv1⟩⟩
  by_cases hb : p ∈ stripBorder n
  · exact Or.inr hb
  left
  simp only [stripBorder, Set.mem_union, Set.mem_setOf_eq, Set.mem_iUnion, not_or,
    not_exists] at hb
  obtain ⟨hb1, hb2⟩ := hb
  have hfr : 0 < Int.fract (p.1 * (n : ℝ)) := by
    rcases (Int.fract_nonneg (p.1 * (n : ℝ))).eq_or_lt with h | h
    · exfalso
      apply hb2 ⌊p.1 * (n : ℝ)⌋
      have : p.1 * (n : ℝ) = ((⌊p.1 * (n : ℝ)⌋ : ℤ) : ℝ) := by
        have := Int.self_sub_floor (p.1 * (n : ℝ))
        linarith
      rw [← this]
      field_simp
    · exact h
  have hu : 0 < p.1 := by
    rcases hu0.eq_or_lt with h | h
    · rw [← h, zero_mul, Int.fract_zero] at hfr
      exact absurd hfr (lt_irrefl 0)
    · exact h
  have hv : 0 < p.2 := by
    rcases hv0.eq_or_lt with h | h
    · exfalso
      apply hb1
      rw [← h]
      norm_num
    · exact h
  exact ⟨hu, hu1, by rw [configured_numBlades]; exact hfr, hv, hv1⟩

theorem sampleDomain_subset (t : BladeTexture) :
    sampleDomain t ⊆ Set.Ico (0 : ℝ) 1 ×ˢ Set.Ico (0 : ℝ) 1 := by
  rintro p ⟨h1, h2, _, h4, h5⟩
  exact ⟨⟨h1.le, h2⟩, ⟨h4.le, h5⟩⟩

/-- Two sets that differ by a null set have the same measure. -/
theorem measure_eq_of_subset_of_null {s u z : Set (ℝ × ℝ)} (h1 : s ⊆ u) (h2 : u ⊆ s ∪ z)
    (hz : volume z = 0) : volume u = volume s := by
  apply le_antisymm
  · calc volume u ≤ volume (s ∪ z) := measure_mono h2
      _ ≤ volume s + volume z := measure_union_le s z
      _ = volume s := by rw [hz, add_zero]
  · exact measure_mono h1

/-! ## The derivative of `sample` and its law -/

theorem hasFDerivAt_two (f g : ℝ → ℝ) (f' g' c : ℝ) (p : ℝ × ℝ)
    (hf : HasDerivAt f f' p.1) (hg : HasDerivAt g g' p.2) :
    HasFDerivAt (fun q : ℝ × ℝ => (f q.1 * g q.2 + c) / 2)
      (((f' * g p.2 / 2) • ContinuousLinearMap.fst ℝ ℝ ℝ
        + (f p.1 * g' / 2) • ContinuousLinearMap.snd ℝ ℝ ℝ)) p := by
  have h1 : HasFDerivAt (fun q : ℝ × ℝ => f q.1) (f' • ContinuousLinearMap.fst ℝ ℝ ℝ) p :=
    hf.comp_hasFDerivAt p hasFDerivAt_fst
  have h2 : HasFDerivAt (fun q : ℝ × ℝ => g q.2) (g' • ContinuousLinearMap.snd ℝ ℝ ℝ) p :=
    hg.comp_hasFDerivAt p hasFDerivAt_snd
  have h3 : HasFDerivAt (fun q : ℝ × ℝ => f q.1 * g q.2)
      (f p.1 • (g' • ContinuousLinearMap.snd ℝ ℝ ℝ)
        + g p.2 • (f' • ContinuousLinearMap.fst ℝ ℝ ℝ)) p := h1.mul h2
  have h4 : HasFDerivAt (fun q : ℝ × ℝ => (f q.1 * g q.2 + c) * (1 / 2))
      ((1 / 2 : ℝ) • (f p.1 • (g' • ContinuousLinearMap.snd ℝ ℝ ℝ)
        + g p.2 • (f' • ContinuousLinearMap.fst ℝ ℝ ℝ))) p := (h3.add_const c).mul_const (1 / 2)
  convert h4 using 1
  · funext q
    ring
  · ext <;> simp <;> ring

theorem hasDerivAt_affine (a b : ℝ) (y : ℝ) :
    HasDerivAt (fun x : ℝ => a * x + b) a y := by
  simpa using ((hasDerivAt_id y).const_mul a).add_const b

theorem sampleMap_hasFDerivAt (n : ℤ) (hn : 1 ≤ n) (r : ℝ) (p : ℝ × ℝ)
    (hu0 : 0 ≤ p.1) (hfr : 0 < Int.fract (p.1 * (n : ℝ))) :
    HasFDerivAt (sampleMap (configured n r)) (sampleJacobian (configured n r) p) p := by
  have hnR : (0 : ℝ) < (n : ℝ) := by exact_mod_cast (by omega : 0 < n)
  have htr : truncToInt (p.1 * (n : ℝ)) = ⌊p.1 * (n : ℝ)⌋ :=
    truncToInt_of_nonneg _ (mul_nonneg hu0 hnR.le)
  have hk0 : 0 ≤ ⌊p.1 * (n : ℝ)⌋ := Int.floor_nonneg.mpr (mul_nonneg hu0 hnR.le)
  set k := ⌊p.1 * (n : ℝ)⌋ with hk
  have hpos : 0 < p.1 * (n : ℝ) - (k : ℝ) := hfr
  have h1 : (k : ℝ) / (n : ℝ) < p.1 := by
    rw [div_lt_iff₀ hnR]; linarith
  have h2 : p.1 < ((k : ℝ) + 1) / (n : ℝ) := by
    rw [lt_div_iff₀ hnR]; exact Int.lt_floor_add_one _
  have hev : ∀ᶠ q : ℝ × ℝ in nhds p, truncToInt (q.1 * (n : ℝ)) = k :=
    (continuous_fst.tendsto p).eventually (blade_eventually n hn k hk0 p.1 h1 h2)
  have hs := hasDerivAt_sqrt_strip (n : ℝ) (k : ℝ) p.1 hpos
  set ca := Real.cos (2 * π / (n : ℝ))
  set sa := Real.sin (2 * π / (n : ℝ))
  set C := Real.cos (r + (k : ℝ) * (2 * π / (n : ℝ)))
  set S := Real.sin (r + (k : ℝ) * (2 * π / (n : ℝ)))
  have hX := hasFDerivAt_two (fun x => Real.sqrt (x * (n : ℝ) - (k : ℝ)))
    (fun y => ((1 - ca) * C + sa * S) * y + (ca * C - sa * S)) _ _ 1 p hs
    (hasDerivAt_affine _ _ p.2)
  have hY := hasFDerivAt_two (fun x => Real.sqrt (x * (n : ℝ) - (k : ℝ)))
    (fun y => (-sa * C + (1 - ca) * S) * y + (sa * C + ca * S)) _ _ 1 p hs
    (hasDerivAt_affine _ _ p.2)
  have hG := hX.prod hY
  refine (hG.congr_of_eventuallyEq ?_).congr_fderiv ?_
  · filter_upwards [hev] with q hq
    simp only [sampleMap]
    rw [sample_x_eq, sample_y_eq, hq]
    simp only [Prod.mk.injEq]
    constructor <;> ring
  · simp only [sampleJacobian, configured_numBlades, configured_angle, configured_bladeAngle,
      Matrix.toLin_finTwoProd_toContinuousLinearMap, htr]
    congr 3 <;> ring

theorem sampleDomain_measurable (t : BladeTexture) : MeasurableSet (sampleDomain t) := by
  have h1 : Measurable (fun p : ℝ × ℝ => p.1) := measurable_fst
  have h2 : Measurable (fun p : ℝ × ℝ => p.2) := measurable_snd
  have h3 : Measurable (fun p : ℝ × ℝ => Int.fract (p.1 * (t.numBlades : ℝ))) :=
    measurable_fract.comp (h1.mul_const _)
  exact (measurableSet_lt measurable_const h1).inter
    ((measurableSet_lt h1 measurable_const).inter
      ((measurableSet_lt measurable_const h3).inter
        ((measurableSet_lt measurable_const h2).inter (measurableSet_lt h2 measurable_const))))

theorem measurable_truncToInt : Measurable (fun x : ℝ => ((truncToInt x : ℤ) : ℝ)) := by
  have hf : Measurable (fun x : ℝ => ((⌊x⌋ : ℤ) : ℝ)) :=
    (measurable_from_top : Measurable (fun k : ℤ => (k : ℝ))).comp Int.measurable_floor
  have hc : Measurable (fun x : ℝ => ((⌈x⌉ : ℤ) : ℝ)) :=
    (measurable_from_top : Measurable (fun k : ℤ => (k : ℝ))).comp Int.measurable_ceil
  have : (fun x : ℝ => ((truncToInt x : ℤ) : ℝ))
      = fun x : ℝ => if 0 ≤ x then ((⌊x⌋ : ℤ) : ℝ) else ((⌈x⌉ : ℤ) : ℝ) := by
    funext x
    simp only [truncToInt]
    split_ifs <;> rfl
  rw [this]
  exact Measurable.ite measurableSet_Ici hf hc

theorem sampleMap_measurable (n : ℤ) (r : ℝ) : Measurable (sampleMap (configured n r)) := by
  have h1 : Measurable (fun p : ℝ × ℝ => p.1) := measurable_fst
  have h2 : Measurable (fun p : ℝ × ℝ => p.2) := measurable_snd
  have hk : Measurable (fun p : ℝ × ℝ => ((truncToInt (p.1 * (n : ℝ)) : ℤ) : ℝ)) :=
    measurable_truncToInt.comp (h1.mul_const _)
  have hs : Measurable (fun p : ℝ × ℝ =>
      Real.sqrt (p.1 * (n : ℝ) - ((truncToInt (p.1 * (n : ℝ)) : ℤ) : ℝ))) :=
    ((h1.mul_const _).sub hk).sqrt
  have hC : Measurable (fun p : ℝ × ℝ =>
      Real.cos (r + ((truncToInt (p.1 * (n : ℝ)) : ℤ) : ℝ) * (2 * π / (n : ℝ)))) :=
    Real.measurable_cos.comp ((hk.mul_const _).const_add _)
  have hS : Measurable (fun p : ℝ × ℝ =>
      Real.sin (r + ((truncToInt (p.1 * (n : ℝ)) : ℤ) : ℝ) * (2 * π / (n : ℝ)))) :=
    Real.measurable_sin.comp ((hk.mul_const _).const_add _)
  have hv : Measurable (fun p : ℝ × ℝ => 1 - p.2) := h2.const_sub 1
  have e : sampleMap (configured n r) = fun p : ℝ × ℝ =>
      ((Real.sqrt (p.1 * n - truncToInt (p.1 * n)) * ((1 - p.2) * Real.cos (2 * π / (n : ℝ)) + p.2)
            * Real.cos (r + truncToInt (p.1 * n) * (2 * π / (n : ℝ)))
          - Real.sqrt (p.1 * n - truncToInt (p.1 * n)) * (1 - p.2) * Real.sin (2 * π / (n : ℝ))
            * Real.sin (r + truncToInt (p.1 * n) * (2 * π / (n : ℝ))) + 1) / 2,
       (Real.sqrt (p.1 * n - truncToInt (p.1 * n)) * (1 - p.2) * Real.sin (2 * π / (n : ℝ))
            * Real.cos (r + truncToInt (p.1 * n) * (2 * π / (n : ℝ)))
          + Real.sqrt (p.1 * n - truncToInt (p.1 * n)) * ((1 - p.2) * Real.cos (2 * π / (n : ℝ)) + p.2)
            * Real.sin (r + truncToInt (p.1 * n) * (2 * π / (n : ℝ))) + 1) / 2) := by
    funext p
    simp only [sampleMap]
    rw [sample_x_eq, sample_y_eq]
  rw [e]
  apply Measurable.prod_mk
  · exact ((((hs.mul ((hv.mul_const _).add h2)).mul hC).sub
      (((hs.mul hv).mul_const _).mul hS)).add_const 1).div_const 2
  · exact (((((hs.mul hv).mul_const _).mul hC).add
      ((hs.mul ((hv.mul_const _).add h2)).mul hS)).add_const 1).div_const 2

theorem sampleJacobian_det (n : ℤ) (hn : 3 ≤ n) (r : ℝ) (p : ℝ × ℝ)
    (hu0 : 0 ≤ p.1) (hfr : 0 < Int.fract (p.1 * (n : ℝ))) :
    |(sampleJacobian (configured n r) p).det| = (configured n r).area := by
  have hnR : (0 : ℝ) < (n : ℝ) := by exact_mod_cast (by omega : 0 < n)
  have htr : truncToInt (p.1 * (n : ℝ)) = ⌊p.1 * (n : ℝ)⌋ :=
    truncToInt_of_nonneg _ (mul_nonneg hu0 hnR.le)
  have hpos : 0 < p.1 * (n : ℝ) - ((⌊p.1 * (n : ℝ)⌋ : ℤ) : ℝ) := hfr
  simp only [sampleJacobian, LinearMap.det_toContinuousLinearMap, LinearMap.det_toLin,
    Matrix.det_fin_two_of, configured_numBlades, configured_angle, configured_bladeAngle, htr]
  rw [jacobian_det (n : ℝ) _ p.2 _ _ _ _ (Real.sqrt_ne_zero'.mpr hpos)
    (Real.sin_sq_add_cos_sq _), abs_neg, configured_area]
  obtain ⟨ha0, ha1⟩ := bladeAngle_bounds n hn
  exact abs_of_pos (by have := Real.sin_pos_of_pos_of_lt_pi ha0 ha1; positivity)

theorem sampleMap_injOn (n : ℤ) (hn : 3 ≤ n) (r : ℝ) :
    Set.InjOn (sampleMap (configured n r)) (sampleDomain (configured n r)) := by
  intro p hp p' hp' h
  obtain ⟨h1, h2, h3, h4, h5⟩ := hp
  obtain ⟨h1', h2', h3', h4', h5'⟩ := hp'
  rw [configured_numBlades] at h3 h3'
  have hs : sample (configured n r) ⟨p.1, p.2⟩ = sample (configured n r) ⟨p'.1, p'.2⟩ :=
    Vec2f_ext _ _ (congrArg Prod.fst h) (congrArg Prod.snd h)
  have hu := unsample_sample n hn r p.1 p.2 h1.le h2 h3 h4 h5
  have hu' := unsample_sample n hn r p'.1 p'.2 h1'.le h2' h3' h4' h5'
  rw [hs, hu'] at hu
  exact Prod.ext (congrArg Vec2f.x hu).symm (congrArg Vec2f.y hu).symm

/-- The law of `sample`: the points of the unit square sent into a measurable
set `A` have total area `1 / area` times the area of the part of `A` inside
the polygon. -/
theorem sampleMap_law (n : ℤ) (hn : 3 ≤ n) (r : ℝ) (A : Set (ℝ × ℝ)) (hA : MeasurableSet A) :
    volume ((Set.Ico (0 : ℝ) 1 ×ˢ Set.Ico (0 : ℝ) 1)
        ∩ Set.preimage (sampleMap (configured n r)) A)
      = ENNReal.ofReal (1 / (configured n r).area) * volume (A ∩ polygon (configured n r)) := by
  have hpos := configured_area_pos n hn r
  set F := sampleMap (configured n r) with hF
  set D := sampleDomain (configured n r) with hD
  have hFA : MeasurableSet (Set.preimage F A) := sampleMap_measurable n r hA
  have hs : MeasurableSet (D ∩ Set.preimage F A) := (sampleDomain_measurable _).inter hFA
  -- the unit square and the smooth domain carry the same mass
  have h1 : volume ((Set.Ico (0 : ℝ) 1 ×ˢ Set.Ico (0 : ℝ) 1) ∩ Set.preimage F A)
      = volume (D ∩ Set.preimage F A) := by
    apply measure_eq_of_subset_of_null (z := stripBorder n)
    · exact Set.inter_subset_inter_left _ (sampleDomain_subset _)
    · rintro p ⟨hp1, hp2⟩
      rcases unitSquare_subset n hn r hp1 with h | h
      · exact Or.inl ⟨h, hp2⟩
      · exact Or.inr h
    · exact volume_stripBorder n
  -- change of variables on the smooth domain
  have h2 : ∫⁻ x in D ∩ Set.preimage F A,
      ENNReal.ofReal |(sampleJacobian (configured n r) x).det|
      = volume (Set.image F (D ∩ Set.preimage F A)) := by
    apply lintegral_abs_det_fderiv_eq_addHaar_image volume hs
    · intro x hx
      obtain ⟨h1, _, h3, _, _⟩ := hx.1
      rw [configured_numBlades] at h3
      exact (sampleMap_hasFDerivAt n (by omega) r x h1.le h3).hasFDerivWithinAt
    · exact (sampleMap_injOn n hn r).mono Set.inter_subset_left
  have h3 : ∫⁻ x in D ∩ Set.preimage F A,
      ENNReal.ofReal |(sampleJacobian (configured n r) x).det|
      = ENNReal.ofReal (configured n r).area * volume (D ∩ Set.preimage F A) := by
    rw [← setLIntegral_const]
    apply setLIntegral_congr_fun hs
    apply Filter.Eventually.of_forall
    intro x hx
    obtain ⟨h1, _, h3, _, _⟩ := hx.1
    rw [configured_numBlades] at h3
    rw [sampleJacobian_det n hn r x h1.le h3]
  -- the image is the polygon up to the border lines
  have h4 : volume (Set.image F (D ∩ Set.preimage F A))
      = volume (A ∩ polygon (configured n r)) := by
    rw [Set.image_inter_preimage]
    symm
    apply measure_eq_of_subset_of_null (z := polygonBorder n r)
    · rintro q ⟨hq1, hq2⟩
      exact ⟨hq2, image_subset_polygon n hn r hq1⟩
    · rintro q ⟨hq1, hq2⟩
      rcases polygon_subset n hn r hq2 with h | h
      · exact Or.inl ⟨h, hq1⟩
      · exact Or.inr h
    · exact volume_polygonBorder n r
  rw [h1, ← h4, ← h2, h3, ← mul_assoc, ← ENNReal.ofReal_mul (by positivity),
    one_div_mul_cancel hpos.ne', ENNReal.ofReal_one, one_mul]

theorem volume_unitSquare : volume (Set.Ico (0 : ℝ) 1 ×ˢ Set.Ico (0 : ℝ) 1) = 1 := by
  rw [Measure.volume_eq_prod, Measure.prod_prod, Real.volume_Ico]
  simp

/-- The region accepted by the membership test has the area `init` derives. -/
theorem volume_polygon (n : ℤ) (hn : 3 ≤ n) (r : ℝ) :
    volume (polygon (configured n r)) = ENNReal.ofReal (configured n r).area := by
  have hpos := configured_area_pos n hn r
  have h := sampleMap_law n hn r Set.univ MeasurableSet.univ
  rw [Set.preimage_univ, Set.inter_univ, Set.univ_inter, volume_unitSquare] at h
  have h2 : ENNReal.ofReal (configured n r).area * 1
      = ENNReal.ofReal (configured n r).area
        * (ENNReal.ofReal (1 / (configured n r).area) * volume (polygon (configured n r))) := by
    rw [h]
  rw [mul_one, ← mul_assoc, ← ENNReal.ofReal_mul hpos.le, mul_one_div_cancel hpos.ne',
    ENNReal.ofReal_one, one_mul] at h2
  exact h2.symm

theorem sum_triangleArea (n : ℤ) (hn : 3 ≤ n) (r : ℝ) :
    ∑ k in Finset.range n.toNat,
      triangleArea ⟨0.5, 0.5⟩ (polygonVertex (configured n r) (k : ℤ))
        (polygonVertex (configured n r) ((k : ℤ) + 1)) = (configured n r).area := by
  have hk : ∀ k ∈ Finset.range n.toNat,
      triangleArea ⟨0.5, 0.5⟩ (polygonVertex (configured n r) (k : ℤ))
        (polygonVertex (configured n r) ((k : ℤ) + 1))
        = 0.125 * Real.sin (2 * π / (n : ℝ)) :=
    fun k _ => wedge_triangleArea n hn r (k : ℤ)
  rw [Finset.sum_congr rfl hk, Finset.sum_const, Finset.card_range, nsmul_eq_mul,
    configured_area]
  have : ((n.toNat : ℤ) : ℝ) = (n : ℝ) := by
    rw [Int.toNat_of_nonneg (by omega)]
  rw [Int.cast_natCast] at this
  rw [this]
  ring

/-! ## The default state and the reachable states -/

theorem init_eq_configured (t : BladeTexture) : init t = configured t.numBlades t.angle := rfl

theorem init_init (t : BladeTexture) : init (init t) = init t := rfl

theorem reachable_eq_init (t : BladeTexture) (h : Reachable t) : init t = t := by
  induction h with
  | construct => rfl
  | setAngle t a _ _ => rfl
  | setNumBlades t n _ _ => rfl

theorem default_bladeAngle : BladeTexture.default.bladeAngle = π / 3 := by
  simp only [BladeTexture.default, configured_bladeAngle]
  push_cast
  ring

theorem default_area : BladeTexture.default.area = 3 * Real.sqrt 3 / 8 := by
  simp only [BladeTexture.default, configured_area]
  have h : 2 * π / ((6 : ℤ) : ℝ) = π / 3 := by push_cast; ring
  rw [h, Real.sin_pi_div_three]
  push_cast
  ring

theorem sqrt_three_bounds : 1.7320 < Real.sqrt 3 ∧ Real.sqrt 3 < 1.7321 := by
  constructor
  · rw [Real.lt_sqrt (by norm_num)]
    norm_num
  · rw [Real.sqrt_lt' (by norm_num)]
    norm_num

/-! ## The sample stays in the unit disc -/

theorem sample_eq_sampleLocal (t : BladeTexture) (uv : Vec2f) :
    sample t uv =
      ((Vec2f.mk
        ((sampleLocal t uv).x * Real.cos (t.angle + (sampleBlade t uv : ℝ) * t.bladeAngle)
          - (sampleLocal t uv).y * Real.sin (t.angle + (sampleBlade t uv : ℝ) * t.bladeAngle))
        ((sampleLocal t uv).y * Real.cos (t.angle + (sampleBlade t uv : ℝ) * t.bladeAngle)
          + (sampleLocal t uv).x
            * Real.sin (t.angle + (sampleBlade t uv : ℝ) * t.bladeAngle))).scale 0.5).addScalar
        0.5 := rfl

/-- The centred sample stays in the unit disc. -/
theorem sample_centred_norm_le (n : ℤ) (hn : 1 ≤ n) (r u v : ℝ)
    (hu0 : 0 ≤ u) (hv0 : 0 ≤ v) (hv1 : v ≤ 1) :
    ((sample (configured n r) ⟨u, v⟩).x * 2 - 1) ^ 2
      + ((sample (configured n r) ⟨u, v⟩).y * 2 - 1) ^ 2 ≤ 1 := by
  have hnR : (0 : ℝ) ≤ (n : ℝ) := by exact_mod_cast (by omega : 0 ≤ n)
  obtain ⟨hs0, hs1⟩ := sqrt_frac_bounds (u * n) (mul_nonneg hu0 hnR)
  obtain ⟨hx, hy⟩ := sample_centred n r u v
  rw [hx, hy]
  set s := Real.sqrt (u * n - truncToInt (u * n))
  have h1 := Real.sin_sq_add_cos_sq (2 * π / (n : ℝ))
  have h2 := Real.sin_sq_add_cos_sq (r + (truncToInt (u * n) : ℝ) * (2 * π / (n : ℝ)))
  have hc := Real.cos_le_one (2 * π / (n : ℝ))
  set ca := Real.cos (2 * π / (n : ℝ))
  set sa := Real.sin (2 * π / (n : ℝ))
  set C := Real.cos (r + (truncToInt (u * n) : ℝ) * (2 * π / (n : ℝ)))
  set S := Real.sin (r + (truncToInt (u * n) : ℝ) * (2 * π / (n : ℝ)))
  have e : (s * ((1 - v) * ca + v) * C - s * (1 - v) * sa * S) ^ 2
      + (s * (1 - v) * sa * C + s * ((1 - v) * ca + v) * S) ^ 2
      = s ^ 2 * (1 - 2 * v * (1 - v) * (1 - ca)) := by
    linear_combination (s ^ 2 * (((1 - v) * ca + v) ^ 2 + ((1 - v) * sa) ^ 2)) * h2
      + (s ^ 2 * (1 - v) ^ 2) * h1
  rw [e]
  have h3 : 0 ≤ 2 * v * (1 - v) * (1 - ca) :=
    mul_nonneg (mul_nonneg (by linarith) (by linarith)) (by linarith)
  have h4 : s ^ 2 ≤ 1 := by nlinarith
  nlinarith [sq_nonneg s]

/-! ## One half-plane test against all the edges -/

/-- Cosine on `[A, 2π - A]` stays below its value at `A`. -/
theorem cos_le_cos_of_mem (A y : ℝ) (hA0 : 0 ≤ A) (h1 : A ≤ y) (h2 : y ≤ 2 * π - A) :
    Real.cos y ≤ Real.cos A := by
  by_cases hy : y ≤ π
  · exact Real.cos_le_cos_of_nonneg_of_le_pi hA0 hy h1
  · rw [← Real.cos_two_pi_sub y]
    exact Real.cos_le_cos_of_nonneg_of_le_pi hA0 (by linarith) (by linarith)

/-- Within half a sector of the wedge middle, turning by whole sectors never
increases the cosine. -/
theorem cos_add_sector_le (n : ℤ) (hn : 1 ≤ n) (x : ℝ) (hx : |x| ≤ π / (n : ℝ)) (j : ℤ) :
    Real.cos (x + (j : ℝ) * (2 * π / (n : ℝ))) ≤ Real.cos x := by
  have hnR : (1 : ℝ) ≤ (n : ℝ) := by exact_mod_cast hn
  have hpos : (0 : ℝ) < (n : ℝ) := by linarith
  have hA : 0 < π / (n : ℝ) := div_pos Real.pi_pos hpos
  have hAle : π / (n : ℝ) ≤ π := div_le_self Real.pi_pos.le hnR
  have hnA : (n : ℝ) * (π / (n : ℝ)) = π := by field_simp
  obtain ⟨hx0, hx1⟩ := abs_le.mp hx
  have hj0 := Int.emod_nonneg j (by omega : n ≠ 0)
  have hj1 := Int.emod_lt_of_pos j (by omega : 0 < n)
  have hj : (j : ℝ) = ((j % n : ℤ) : ℝ) + (n : ℝ) * ((j / n : ℤ) : ℝ) := by
    exact_mod_cast (Int.emod_add_ediv j n).symm
  have e : x + (j : ℝ) * (2 * π / (n : ℝ))
      = x + ((j % n : ℤ) : ℝ) * (2 * π / (n : ℝ)) + ((j / n : ℤ) : ℝ) * (2 * π) := by
    rw [hj]
    field_simp
    ring
  rw [e, Real.cos_add_int_mul_two_pi]
  rcases hj0.eq_or_lt with h0 | h0
  · rw [← h0]; simp
  · have h0R : (1 : ℝ) ≤ ((j % n : ℤ) : ℝ) := by exact_mod_cast (by omega : 1 ≤ j % n)
    have h1R : ((j % n : ℤ) : ℝ) ≤ (n : ℝ) - 1 := by exact_mod_cast (by omega : j % n ≤ n - 1)
    have e2 : ((j % n : ℤ) : ℝ) * (2 * π / (n : ℝ)) = 2 * ((j % n : ℤ) : ℝ) * (π / (n : ℝ)) := by
      ring
    have hlow : 2 * (π / (n : ℝ)) ≤ 2 * ((j % n : ℤ) : ℝ) * (π / (n : ℝ)) := by nlinarith
    have hhigh : 2 * ((j % n : ℤ) : ℝ) * (π / (n : ℝ)) ≤ 2 * π - 2 * (π / (n : ℝ)) := by
      have : 2 * ((j % n : ℤ) : ℝ) * (π / (n : ℝ)) ≤ 2 * ((n : ℝ) - 1) * (π / (n : ℝ)) := by
        nlinarith
      calc 2 * ((j % n : ℤ) : ℝ) * (π / (n : ℝ)) ≤ 2 * ((n : ℝ) - 1) * (π / (n : ℝ)) := this
        _ = 2 * ((n : ℝ) * (π / (n : ℝ))) - 2 * (π / (n : ℝ)) := by ring
        _ = 2 * π - 2 * (π / (n : ℝ)) := by rw [hnA]
    calc Real.cos (x + ((j % n : ℤ) : ℝ) * (2 * π / (n : ℝ)))
        ≤ Real.cos (π / (n : ℝ)) :=
          cos_le_cos_of_mem _ _ hA.le (by rw [e2]; linarith) (by rw [e2]; linarith)
      _ ≤ Real.cos x := by
          rw [← Real.cos_abs x]
          exact Real.cos_le_cos_of_nonneg_of_le_pi (abs_nonneg _) hAle hx

/-- The value of the reference test at edge `k`, in polar form. -/
theorem polygonTest_polar (n : ℤ) (r : ℝ) (uv : Vec2f) (k : ℤ) :
    Real.cos (r + ((k : ℝ) + 1 / 2) * (2 * π / (n : ℝ)))
        * ((2 * uv.x - 1) - Real.cos (r + (k : ℝ) * (2 * π / (n : ℝ))))
      + Real.sin (r + ((k : ℝ) + 1 / 2) * (2 * π / (n : ℝ)))
        * ((2 * uv.y - 1) - Real.sin (r + (k : ℝ) * (2 * π / (n : ℝ))))
      = Real.sqrt ((uv.x * 2 - 1) ^ 2 + (uv.y * 2 - 1) ^ 2)
          * Real.cos (atan2 (uv.y * 2 - 1) (uv.x * 2 - 1)
              - (r + ((k : ℝ) + 1 / 2) * (2 * π / (n : ℝ))))
        - Real.cos (π / (n : ℝ)) := by
  have hx := polar_x (uv.x * 2 - 1) (uv.y * 2 - 1)
  have hy := polar_y (uv.x * 2 - 1) (uv.y * 2 - 1)
  have e : r + ((k : ℝ) + 1 / 2) * (2 * π / (n : ℝ))
      = (r + (k : ℝ) * (2 * π / (n : ℝ))) + π / (n : ℝ) := by ring
  have hA : Real.cos (π / (n : ℝ))
      = Real.cos ((r + (k : ℝ) * (2 * π / (n : ℝ))) + π / (n : ℝ) - (r + (k : ℝ) * (2 * π / (n : ℝ)))) := by
    congr 1; ring
  rw [e]
  set ψ := r + (k : ℝ) * (2 * π / (n : ℝ))
  set B := ψ + π / (n : ℝ)
  rw [hA, Real.cos_sub B ψ, Real.cos_sub _ B]
  linear_combination (-Real.cos B) * hx - Real.sin B * hy

/-- The folded angle, measured from the middle of the canonical wedge, is at
most half a sector. -/
theorem abs_fold_le (n : ℤ) (hn : 1 ≤ n) (x : ℝ) :
    |2 * π / (n : ℝ) * Int.fract x - π / (n : ℝ)| ≤ π / (n : ℝ) := by
  have hnR : (0 : ℝ) < (n : ℝ) := by exact_mod_cast (by omega : 0 < n)
  have hA : 0 < π / (n : ℝ) := div_pos Real.pi_pos hnR
  have h0 := Int.fract_nonneg x
  have h1 := Int.fract_lt_one x
  have e : 2 * π / (n : ℝ) = 2 * (π / (n : ℝ)) := by ring
  rw [abs_le, e]
  constructor <;> nlinarith

/-- In exact arithmetic the single half-plane test after the fold agrees with
the test against all `n` edges. -/
theorem edgeValue_le_iff_polygonTest (n : ℤ) (hn : 1 ≤ n) (r : ℝ) (uv : Vec2f) :
    edgeValue (configured n r) uv ≤ 0 ↔ polygonTest n r uv := by
  have hnR : (0 : ℝ) < (n : ℝ) := by exact_mod_cast (by omega : 0 < n)
  have ha : 2 * π / (n : ℝ) ≠ 0 := div_ne_zero (by positivity) hnR.ne'
  rw [edgeValue_polar n (by omega) r uv]
  set α := atan2 (uv.y * 2 - 1) (uv.x * 2 - 1) with hα
  set ρ := Real.sqrt ((uv.x * 2 - 1) ^ 2 + (uv.y * 2 - 1) ^ 2) with hρ
  have hρ0 : 0 ≤ ρ := Real.sqrt_nonneg _
  set X := (α - r) / (2 * π / (n : ℝ)) with hX
  have hfold := abs_fold_le n hn X
  set θ := 2 * π / (n : ℝ) * Int.fract X - π / (n : ℝ) with hθ
  have hangle : ∀ k : ℤ, α - (r + ((k : ℝ) + 1 / 2) * (2 * π / (n : ℝ)))
      = θ + ((⌊X⌋ - k : ℤ) : ℝ) * (2 * π / (n : ℝ)) := by
    intro k
    have h1 : 2 * π / (n : ℝ) * X = α - r := by
      rw [hX, mul_div_cancel₀ _ ha]
    rw [hθ, Int.fract, mul_sub, h1]
    push_cast
    ring
  constructor
  · intro h k _ _
    rw [polygonTest_polar, ← hα, ← hρ, hangle k]
    have := cos_add_sector_le n hn θ hfold (⌊X⌋ - k)
    nlinarith [mul_le_mul_of_nonneg_left this hρ0]
  · intro h
    have hk0 := Int.emod_nonneg ⌊X⌋ (by omega : n ≠ 0)
    have hk1 := Int.emod_lt_of_pos ⌊X⌋ (by omega : 0 < n)
    have hk := h (⌊X⌋ % n) hk0 (by omega)
    rw [polygonTest_polar, ← hα, ← hρ, hangle (⌊X⌋ % n)] at hk
    have e : ((⌊X⌋ - ⌊X⌋ % n : ℤ) : ℝ) * (2 * π / (n : ℝ))
        = ((⌊X⌋ / n : ℤ) : ℝ) * (2 * π) := by
      have : ⌊X⌋ - ⌊X⌋ % n = n * (⌊X⌋ / n) := by
        have := Int.emod_add_ediv ⌊X⌋ n
        omega
      rw [this]
      push_cast
      field_simp
      ring
    rw [e, Real.cos_add_int_mul_two_pi] at hk
    exact hk

/-- C2. For every blade count `n ≥ 3`, every rotation and every point `uv`,
`pdf` returns `1 / area` where the membership test accepts `uv` (the zero
sentinel included) and `0` where it rejects it; hence `pdf` is positive exactly
on the accepted points, and equals `1 / area` whenever it is positive. -/
theorem pdf_dual_of_contains (n : ℤ) (hn : 3 ≤ n) (r : ℝ) (uv : Vec2f) :
    (contains (configured n r) uv → pdf (configured n r) uv = 1 / (configured n r).area)
      ∧ (¬ contains (configured n r) uv → pdf (configured n r) uv = 0)
      ∧ (0 < pdf (configured n r) uv ↔ contains (configured n r) uv)
      ∧ (0 < pdf (configured n r) uv →
          pdf (configured n r) uv = 1 / (configured n r).area) := by
  have hpos : 0 < 1 / (configured n r).area := one_div_pos.mpr (configured_area_pos n hn r)
  have hiff : 0 < pdf (configured n r) uv ↔ contains (configured n r) uv := by
    constructor
    · intro h
      by_contra hc
      rw [pdf_of_not_contains _ _ hc] at h
      exact lt_irrefl 0 h
    · intro h
      rw [pdf_of_contains _ _ h]
      exact hpos
  exact ⟨pdf_of_contains _ _, pdf_of_not_contains _ _, hiff,
    fun h => pdf_of_contains _ _ (hiff.mp h)⟩

/-- Witness for C2: six blades, no rotation, the point `(1/2, 1/2)`. -/
theorem pdf_dual_of_contains_witness :
    (3 : ℤ) ≤ 6 ∧
    ((contains (configured 6 0) ⟨1 / 2, 1 / 2⟩ →
        pdf (configured 6 0) ⟨1 / 2, 1 / 2⟩ = 1 / (configured 6 0).area)
      ∧ (¬ contains (configured 6 0) ⟨1 / 2, 1 / 2⟩ → pdf (configured 6 0) ⟨1 / 2, 1 / 2⟩ = 0)
      ∧ (0 < pdf (configured 6 0) ⟨1 / 2, 1 / 2⟩ ↔ contains (configured 6 0) ⟨1 / 2, 1 / 2⟩)
      ∧ (0 < pdf (configured 6 0) ⟨1 / 2, 1 / 2⟩ →
          pdf (configured 6 0) ⟨1 / 2, 1 / 2⟩ = 1 / (configured 6 0).area)) :=
  ⟨by decide, pdf_dual_of_contains 6 (by decide) 0 ⟨1 / 2, 1 / 2⟩⟩

/-- C4, as the code has it. For every blade count `n ≥ 3` and all rotations
`r`, `r'`, the area derived by `init` is `0.125 * n * sin (2π / n)` (the
product `0.25 * 0.5 * n * sin (2π / n)` of the source), and it is the same for
`r` and `r'`. -/
theorem area_formula (n : ℤ) (_hn : 3 ≤ n) (r r' : ℝ) :
    (configured n r).area = 0.125 * (n : ℝ) * Real.sin (2 * π / (n : ℝ))
      ∧ (configured n r').area = (configured n r).area := by
  refine ⟨configured_area n r, ?_⟩
  rw [configured_area, configured_area]

/-- Witness for C4 as amended: four blades, rotations `0` and `1`. -/
theorem area_formula_witness :
    (3 : ℤ) ≤ 4
      ∧ (configured 4 0).area = 0.125 * ((4 : ℤ) : ℝ) * Real.sin (2 * π / ((4 : ℤ) : ℝ))
      ∧ (configured 4 1).area = (configured 4 0).area :=
  ⟨by decide, area_formula 4 (by decide) 0 1⟩

/-- C4 as stated fails: with four blades and no rotation the derived area is
`0.5`, not `0.25 * 4 * sin (2π / 4) = 1`. -/
theorem area_quarter_formula_fails :
    (3 : ℤ) ≤ 4
      ∧ (configured 4 0).area = 0.5
      ∧ 0.25 * ((4 : ℤ) : ℝ) * Real.sin (2 * π / ((4 : ℤ) : ℝ)) = 1
      ∧ (configured 4 0).area ≠ 0.25 * ((4 : ℤ) : ℝ) * Real.sin (2 * π / ((4 : ℤ) : ℝ)) := by
  have h : 2 * π / ((4 : ℤ) : ℝ) = π / 2 := by push_cast; ring
  rw [configured_area, h, Real.sin_pi_div_two]
  norm_num

/-- C6. For every blade count `n ≥ 3` and every rotation, the value `pdf`
returns on an accepted point is `1 / area`, and multiplied by the uv-space
area of the region accepted by the membership test it gives `1`; that area is
the total area of the `n` triangles spanned by the centre `(0.5, 0.5)` and two
adjacent polygon vertices, each vertex at distance `0.5` from the centre,
adjacent ones `2π / n` apart, each triangle of area `0.125 * sin (2π / n)`. -/
theorem pdf_integrates_to_one (n : ℤ) (hn : 3 ≤ n) (r : ℝ) (uv : Vec2f) (j : ℤ)
    (huv : contains (configured n r) uv) :
    pdf (configured n r) uv = 1 / (configured n r).area
      ∧ pdf (configured n r) uv * (volume (polygon (configured n r))).toReal = 1
      ∧ (volume (polygon (configured n r))).toReal
          = ∑ k in Finset.range n.toNat,
              triangleArea ⟨0.5, 0.5⟩ (polygonVertex (configured n r) (k : ℤ))
                (polygonVertex (configured n r) ((k : ℤ) + 1))
      ∧ Real.sqrt (((polygonVertex (configured n r) j).x - 0.5) ^ 2
          + ((polygonVertex (configured n r) j).y - 0.5) ^ 2) = 0.5
      ∧ triangleArea ⟨0.5, 0.5⟩ (polygonVertex (configured n r) j)
          (polygonVertex (configured n r) (j + 1)) = 0.125 * Real.sin (2 * π / (n : ℝ)) := by
  have hpos := configured_area_pos n hn r
  have hp := pdf_of_contains _ _ huv
  have hvol : (volume (polygon (configured n r))).toReal = (configured n r).area := by
    rw [volume_polygon n hn r, ENNReal.toReal_ofReal hpos.le]
  refine ⟨hp, ?_, ?_, polygonVertex_dist _ j, wedge_triangleArea n hn r j⟩
  · rw [hp, hvol]
    exact one_div_mul_cancel hpos.ne'
  · rw [hvol, sum_triangleArea n hn r]

/-- Witness for C6: six blades, no rotation, the accepted point `(0, 0)`. -/
theorem pdf_integrates_to_one_witness :
    (3 : ℤ) ≤ 6 ∧ contains (configured 6 0) ⟨0, 0⟩
      ∧ pdf (configured 6 0) ⟨0, 0⟩ * (volume (polygon (configured 6 0))).toReal = 1 :=
  ⟨by decide, contains_zero _,
    (pdf_integrates_to_one 6 (by decide) 0 ⟨0, 0⟩ 0 (contains_zero _)).2.1⟩

/-- C9. For every blade count `n ≥ 3` and every rotation, the domain centre
`(0.5, 0.5)` is accepted by the membership test: it is not the sentinel, its
centred point is `(0, 0)` with polar angle `atan2 0 0 = 0`, and the half-plane
test passes there. -/
theorem centre_contains (n : ℤ) (hn : 3 ≤ n) (r : ℝ) :
    (⟨0.5, 0.5⟩ : Vec2f).sum ≠ 0
      ∧ atan2 (0.5 * 2 - 1) (0.5 * 2 - 1) = 0
      ∧ edgeValue (configured n r) ⟨0.5, 0.5⟩ ≤ 0
      ∧ contains (configured n r) ⟨0.5, 0.5⟩ := by
  have he : edgeValue (configured n r) ⟨0.5, 0.5⟩ ≤ 0 := by
    rw [edgeValue_centre]
    linarith [cos_pi_div_pos n hn]
  refine ⟨by norm_num [Vec2f.sum], ?_, he, (contains_iff _ _).mpr (Or.inr he)⟩
  have : (0.5 : ℝ) * 2 - 1 = 0 := by norm_num
  rw [this, atan2_zero_zero]

/-- Witness for C9, the instance of the spec: six blades, rotation `π / 12`. -/
theorem centre_contains_witness :
    (3 : ℤ) ≤ 6 ∧ ((⟨0.5, 0.5⟩ : Vec2f).sum ≠ 0
      ∧ atan2 (0.5 * 2 - 1) (0.5 * 2 - 1) = 0
      ∧ edgeValue (configured 6 (π / 12)) ⟨0.5, 0.5⟩ ≤ 0
      ∧ contains (configured 6 (π / 12)) ⟨0.5, 0.5⟩) :=
  ⟨by decide, centre_contains 6 (by decide) (π / 12)⟩

/-- C10. For every integer blade count and every rotation, with the derived
fields produced by `init`, the membership test accepts `(0, 0)` and `pdf`
returns `1 / area` there.  Both answers come from the sentinel branch, before
the polar angle is folded: they are the same for a texture `t` whose fields
are arbitrary. -/
theorem zero_sentinel (n : ℤ) (r : ℝ) (t : BladeTexture) :
    contains (configured n r) ⟨0, 0⟩
      ∧ evaluate (configured n r) ⟨0, 0⟩ = Vec3f.broadcast 1
      ∧ pdf (configured n r) ⟨0, 0⟩ = 1 / (configured n r).area
      ∧ evaluate t ⟨0, 0⟩ = Vec3f.broadcast 1
      ∧ pdf t ⟨0, 0⟩ = 1 / t.area :=
  ⟨contains_zero _, contains_zero _, pdf_of_contains _ _ (contains_zero _),
    contains_zero t, pdf_of_contains _ _ (contains_zero t)⟩

/-- C11, as the code has it. For six blades and rotation `0.5 * π / 6` (the
default-constructed shape), `init` yields the sector angle `π / 3`, within
`0.0001` of `1.0472`, and the area `0.25 * 0.5 * 6 * sin (π / 3) = 3 √3 / 8`,
within `0.0001` of `0.6495`. -/
theorem default_derived :
    BladeTexture.default.numBlades = 6
      ∧ BladeTexture.default.angle = 0.5 * π / 6
      ∧ BladeTexture.default.bladeAngle = π / 3
      ∧ |BladeTexture.default.bladeAngle - 1.0472| < 0.0001
      ∧ BladeTexture.default.area = 3 * Real.sqrt 3 / 8
      ∧ |BladeTexture.default.area - 0.6495| < 0.0001 := by
  obtain ⟨h1, h2⟩ := sqrt_three_bounds
  have hpi1 := Real.pi_gt_d6
  have hpi2 := Real.pi_lt_d6
  refine ⟨rfl, ?_, default_bladeAngle, ?_, default_area, ?_⟩
  · simp only [BladeTexture.default, configured_angle, PI]
    push_cast
    ring
  · rw [default_bladeAngle, abs_lt]
    constructor <;> linarith
  · rw [default_area, abs_lt]
    constructor <;> linarith

/-- C11 as stated fails: the area of the default-constructed shape is below
`0.65`, so it is not within `0.05` of `1.5`. -/
theorem default_area_not_near_three_halves :
    BladeTexture.default.area < 0.65 ∧ ¬ |BladeTexture.default.area - 1.5| < 0.05 := by
  obtain ⟨h1, h2⟩ := sqrt_three_bounds
  have ha : BladeTexture.default.area < 0.65 := by
    rw [default_area]; linarith
  refine ⟨ha, ?_⟩
  rw [abs_lt, not_and_or]
  left
  linarith

/-- C12, as the code has it. The default-constructed shape has six blades;
`setNumBlades n` stores `n` as it is, for every integer `n` and from every
state, so the stored blade count is at least `3` afterwards exactly when
`n ≥ 3`. -/
theorem numBlades_stored (t : BladeTexture) (n : ℤ) :
    BladeTexture.default.numBlades = 6
      ∧ (setNumBlades t n).numBlades = n
      ∧ (3 ≤ (setNumBlades t n).numBlades ↔ 3 ≤ n) :=
  ⟨rfl, rfl, Iff.rfl⟩

/-- C12 as stated fails: `setNumBlades 2` on the default-constructed shape
leaves the blade count `2`, below `3`; nothing is rejected or clamped. -/
theorem numBlades_not_clamped :
    (setNumBlades BladeTexture.default 2).numBlades = 2
      ∧ ¬ 3 ≤ (setNumBlades BladeTexture.default 2).numBlades :=
  ⟨rfl, by decide⟩

/-- C13. In every state reachable from the default constructor by `setAngle`
and `setNumBlades` calls, the four derived fields are the ones `init` computes
from the current blade count and rotation; `setAngle` leaves the blade count
unchanged and `setNumBlades` leaves the rotation unchanged. -/
theorem derived_fields_fresh (t : BladeTexture) (h : Reachable t) (a : ℝ) (n : ℤ) :
    t.bladeAngle = (init t).bladeAngle
      ∧ t.area = (init t).area
      ∧ t.baseEdge = (init t).baseEdge
      ∧ t.baseNormal = (init t).baseNormal
      ∧ t = configured t.numBlades t.angle
      ∧ (setAngle t a).numBlades = t.numBlades
      ∧ (setAngle t a).angle = a
      ∧ (setNumBlades t n).angle = t.angle
      ∧ (setNumBlades t n).numBlades = n := by
  have e := reachable_eq_init t h
  refine ⟨?_, ?_, ?_, ?_, ?_, rfl, rfl, rfl, rfl⟩
  · exact (congrArg BladeTexture.bladeAngle e).symm
  · exact (congrArg BladeTexture.area e).symm
  · exact (congrArg BladeTexture.baseEdge e).symm
  · exact (congrArg BladeTexture.baseNormal e).symm
  · rw [← init_eq_configured]; exact e.symm

/-- Witness for C13: the default shape after `setAngle 1` and `setNumBlades 5`. -/
theorem derived_fields_fresh_witness :
    Reachable (setNumBlades (setAngle BladeTexture.default 1) 5)
      ∧ (setNumBlades (setAngle BladeTexture.default 1) 5).area
          = (init (setNumBlades (setAngle BladeTexture.default 1) 5)).area
      ∧ setNumBlades (setAngle BladeTexture.default 1) 5 = configured 5 1 :=
  have h : Reachable (setNumBlades (setAngle BladeTexture.default 1) 5) :=
    Reachable.setNumBlades _ 5 (Reachable.setAngle _ 1 Reachable.construct)
  ⟨h, (derived_fields_fresh _ h 0 0).2.1, (derived_fields_fresh _ h 0 0).2.2.2.2.1⟩

/-- C14. For every blade count `n ≥ 3` and every rotation, the area derived by
`init` is strictly positive, so `1 / area` is positive, is a true reciprocal,
and is the positive value `pdf` returns on accepted points. -/
theorem init_area_positive (n : ℤ) (hn : 3 ≤ n) (r : ℝ) (uv : Vec2f) :
    0 < (configured n r).area
      ∧ 0 < 1 / (configured n r).area
      ∧ (1 / (configured n r).area) * (configured n r).area = 1
      ∧ (contains (configured n r) uv → 0 < pdf (configured n r) uv) := by
  have h := configured_area_pos n hn r
  refine ⟨h, one_div_pos.mpr h, one_div_mul_cancel h.ne', fun hc => ?_⟩
  rw [pdf_of_contains _ _ hc]
  exact one_div_pos.mpr h

/-- Witness for C14: three blades, no rotation. -/
theorem init_area_positive_witness :
    (3 : ℤ) ≤ 3 ∧ 0 < (configured 3 0).area ∧ 0 < 1 / (configured 3 0).area :=
  ⟨by decide, (init_area_positive 3 (by decide) 0 ⟨0, 0⟩).1,
    (init_area_positive 3 (by decide) 0 ⟨0, 0⟩).2.1⟩

/-- C15. For every blade count `n ≥ 1`, every rotation and every `(u, v)` in
`[0,1) × [0,1)`, both coordinates of the sample lie in `[0, 1]`, and the sample
is within distance `0.5` of the centre `(0.5, 0.5)`. -/
theorem sample_in_unit_square (n : ℤ) (hn : 1 ≤ n) (r u v : ℝ)
    (hu0 : 0 ≤ u) (_hu1 : u < 1) (hv0 : 0 ≤ v) (hv1 : v < 1) :
    0 ≤ (sample (configured n r) ⟨u, v⟩).x ∧ (sample (configured n r) ⟨u, v⟩).x ≤ 1
      ∧ 0 ≤ (sample (configured n r) ⟨u, v⟩).y ∧ (sample (configured n r) ⟨u, v⟩).y ≤ 1
      ∧ Real.sqrt (((sample (configured n r) ⟨u, v⟩).x - 0.5) ^ 2
          + ((sample (configured n r) ⟨u, v⟩).y - 0.5) ^ 2) ≤ 0.5 := by
  have h := sample_centred_norm_le n hn r u v hu0 hv0 hv1.le
  set x := (sample (configured n r) ⟨u, v⟩).x
  set y := (sample (configured n r) ⟨u, v⟩).y
  have hx : (x * 2 - 1) ^ 2 ≤ 1 := by nlinarith [sq_nonneg (y * 2 - 1)]
  have hy : (y * 2 - 1) ^ 2 ≤ 1 := by nlinarith [sq_nonneg (x * 2 - 1)]
  have hx' := abs_le_one_iff_mul_self_le_one.mpr (by nlinarith : (x * 2 - 1) * (x * 2 - 1) ≤ 1)
  have hy' := abs_le_one_iff_mul_self_le_one.mpr (by nlinarith : (y * 2 - 1) * (y * 2 - 1) ≤ 1)
  rw [abs_le] at hx' hy'
  refine ⟨by linarith, by linarith, by linarith, by linarith, ?_⟩
  rw [Real.sqrt_le_iff]
  constructor
  · norm_num
  · nlinarith

/-- Witness for C15: one blade, no rotation, `(u, v) = (1/2, 1/4)`. -/
theorem sample_in_unit_square_witness :
    (1 : ℤ) ≤ 1 ∧ (0 : ℝ) ≤ 1 / 2 ∧ (1 / 2 : ℝ) < 1 ∧ (0 : ℝ) ≤ 1 / 4 ∧ (1 / 4 : ℝ) < 1
      ∧ Real.sqrt (((sample (configured 1 0) ⟨1 / 2, 1 / 4⟩).x - 0.5) ^ 2
          + ((sample (configured 1 0) ⟨1 / 2, 1 / 4⟩).y - 0.5) ^ 2) ≤ 0.5 :=
  ⟨by decide, by norm_num, by norm_num, by norm_num, by norm_num,
    (sample_in_unit_square 1 (by decide) 0 (1 / 2) (1 / 4)
      (by norm_num) (by norm_num) (by norm_num) (by norm_num)).2.2.2.2⟩

/-- C18. For every blade count `n ≥ 3` and every `(u, v)` in `[0,1) × [0,1)`,
with `s = sqrt (u n - floor (u n))`, the weights `α = 1 - s`, `β = (1 - v) s`
and `γ = 1 - α - β = v s` are non-negative and sum to `1`, the point
`(1, 0) + baseEdge` is `(cos bladeAngle, sin bladeAngle)`, and the unrotated
point `localUv` of `sample` is `α (0, 0) + β ((1, 0) + baseEdge) + γ (1, 0)`. -/
theorem sampleLocal_convex (n : ℤ) (hn : 3 ≤ n) (r u v : ℝ)
    (hu0 : 0 ≤ u) (_hu1 : u < 1) (hv0 : 0 ≤ v) (hv1 : v < 1) :
    0 ≤ 1 - Real.sqrt (u * n - ⌊u * (n : ℝ)⌋)
      ∧ 0 ≤ (1 - v) * Real.sqrt (u * n - ⌊u * (n : ℝ)⌋)
      ∧ 0 ≤ 1 - (1 - Real.sqrt (u * n - ⌊u * (n : ℝ)⌋))
          - (1 - v) * Real.sqrt (u * n - ⌊u * (n : ℝ)⌋)
      ∧ (1 - Real.sqrt (u * n - ⌊u * (n : ℝ)⌋))
          + (1 - v) * Real.sqrt (u * n - ⌊u * (n : ℝ)⌋)
          + (1 - (1 - Real.sqrt (u * n - ⌊u * (n : ℝ)⌋))
            - (1 - v) * Real.sqrt (u * n - ⌊u * (n : ℝ)⌋)) = 1
      ∧ 1 - (1 - Real.sqrt (u * n - ⌊u * (n : ℝ)⌋))
          - (1 - v) * Real.sqrt (u * n - ⌊u * (n : ℝ)⌋)
          = v * Real.sqrt (u * n - ⌊u * (n : ℝ)⌋)
      ∧ 1 + (configured n r).baseEdge.x = Real.cos (configured n r).bladeAngle
      ∧ (configured n r).baseEdge.y = Real.sin (configured n r).bladeAngle
      ∧ sampleLocal (configured n r) ⟨u, v⟩
          = ⟨(1 - Real.sqrt (u * n - ⌊u * (n : ℝ)⌋)) * 0
              + (1 - v) * Real.sqrt (u * n - ⌊u * (n : ℝ)⌋)
                * (1 + (configured n r).baseEdge.x)
              + (1 - (1 - Real.sqrt (u * n - ⌊u * (n : ℝ)⌋))
                  - (1 - v) * Real.sqrt (u * n - ⌊u * (n : ℝ)⌋)) * 1,
            (1 - Real.sqrt (u * n - ⌊u * (n : ℝ)⌋)) * 0
              + (1 - v) * Real.sqrt (u * n - ⌊u * (n : ℝ)⌋) * (configured n r).baseEdge.y
              + (1 - (1 - Real.sqrt (u * n - ⌊u * (n : ℝ)⌋))
                  - (1 - v) * Real.sqrt (u * n - ⌊u * (n : ℝ)⌋)) * 0⟩ := by
  have hnR : (0 : ℝ) ≤ (n : ℝ) := by exact_mod_cast (by omega : 0 ≤ n)
  have htr : truncToInt (u * (n : ℝ)) = ⌊u * (n : ℝ)⌋ :=
    truncToInt_of_nonneg _ (mul_nonneg hu0 hnR)
  obtain ⟨hs0, hs1⟩ := sqrt_frac_bounds (u * n) (mul_nonneg hu0 hnR)
  rw [htr] at hs0 hs1
  have hL : sampleLocal (configured n r) ⟨u, v⟩
      = ⟨(1 + (configured n r).baseEdge.x) * ((1 - v) * Real.sqrt (u * n - ⌊u * (n : ℝ)⌋))
          + (1 - (1 - Real.sqrt (u * n - ⌊u * (n : ℝ)⌋))
              - (1 - v) * Real.sqrt (u * n - ⌊u * (n : ℝ)⌋)),
        (configured n r).baseEdge.y * ((1 - v) * Real.sqrt (u * n - ⌊u * (n : ℝ)⌋))⟩ := by
    simp only [sampleLocal, configured_numBlades, htr]
  set s := Real.sqrt (u * n - ⌊u * (n : ℝ)⌋)
  refine ⟨by linarith, mul_nonneg (by linarith) hs0, ?_, by ring, by ring, ?_, ?_, ?_⟩
  · have : 1 - (1 - s) - (1 - v) * s = v * s := by ring
    rw [this]; exact mul_nonneg hv0 hs0
  · rw [configured_baseEdge, configured_bladeAngle]; ring
  · rw [configured_baseEdge, configured_bladeAngle]
  · rw [hL]
    apply Vec2f_ext
    · simp only; ring
    · simp only; ring

/-- Witness for C18: four blades, no rotation, `(u, v) = (3/8, 1/2)`. -/
theorem sampleLocal_convex_witness :
    (3 : ℤ) ≤ 4 ∧ (0 : ℝ) ≤ 3 / 8 ∧ (3 / 8 : ℝ) < 1 ∧ (0 : ℝ) ≤ 1 / 2 ∧ (1 / 2 : ℝ) < 1
      ∧ 0 ≤ 1 - Real.sqrt ((3 / 8 : ℝ) * ((4 : ℤ) : ℝ) - ⌊(3 / 8 : ℝ) * ((4 : ℤ) : ℝ)⌋)
      ∧ 1 + (configured 4 0).baseEdge.x = Real.cos (configured 4 0).bladeAngle :=
  ⟨by decide, by norm_num, by norm_num, by norm_num, by norm_num,
    (sampleLocal_convex 4 (by decide) 0 (3 / 8) (1 / 2)
      (by norm_num) (by norm_num) (by norm_num) (by norm_num)).1,
    (sampleLocal_convex 4 (by decide) 0 (3 / 8) (1 / 2)
      (by norm_num) (by norm_num) (by norm_num) (by norm_num)).2.2.2.2.2.1⟩

/-- C19. For every blade count `n ≥ 1` and every `u` with `0 ≤ u < 1`, the
wedge index computed by `sample`, the truncation of `u n`, is `floor (u n)`,
lies between `0` and `n - 1`, and the rescaled value `u n - blade` lies in
`[0, 1)`. -/
theorem blade_in_range (n : ℤ) (hn : 1 ≤ n) (r u v : ℝ) (hu0 : 0 ≤ u) (hu1 : u < 1) :
    truncToInt (u * (n : ℝ)) = ⌊u * (n : ℝ)⌋
      ∧ sampleBlade (configured n r) ⟨u, v⟩ = ⌊u * (n : ℝ)⌋
      ∧ 0 ≤ sampleBlade (configured n r) ⟨u, v⟩
      ∧ sampleBlade (configured n r) ⟨u, v⟩ ≤ n - 1
      ∧ 0 ≤ u * (n : ℝ) - (sampleBlade (configured n r) ⟨u, v⟩ : ℝ)
      ∧ u * (n : ℝ) - (sampleBlade (configured n r) ⟨u, v⟩ : ℝ) < 1 := by
  have hnR : (0 : ℝ) < (n : ℝ) := by exact_mod_cast (by omega : 0 < n)
  have htr : truncToInt (u * (n : ℝ)) = ⌊u * (n : ℝ)⌋ :=
    truncToInt_of_nonneg _ (mul_nonneg hu0 hnR.le)
  have hb : sampleBlade (configured n r) ⟨u, v⟩ = ⌊u * (n : ℝ)⌋ := htr
  obtain ⟨hk0, hk1⟩ := floor_strip n hn u hu0 hu1
  rw [hb]
  refine ⟨htr, rfl, hk0, by omega, ?_, ?_⟩
  · linarith [Int.floor_le (u * (n : ℝ))]
  · linarith [Int.lt_floor_add_one (u * (n : ℝ))]

/-- Witness for C19: five blades, no rotation, `u = 1/2`. -/
theorem blade_in_range_witness :
    (1 : ℤ) ≤ 5 ∧ (0 : ℝ) ≤ 1 / 2 ∧ (1 / 2 : ℝ) < 1
      ∧ 0 ≤ sampleBlade (configured 5 0) ⟨1 / 2, 0⟩
      ∧ sampleBlade (configured 5 0) ⟨1 / 2, 0⟩ ≤ 5 - 1 :=
  ⟨by decide, by norm_num, by norm_num,
    (blade_in_range 5 (by decide) 0 (1 / 2) 0 (by norm_num) (by norm_num)).2.2.1,
    (blade_in_range 5 (by decide) 0 (1 / 2) 0 (by norm_num) (by norm_num)).2.2.2.1⟩

/-- C20. The sentinel branch of the membership test and of `pdf` is the one
taken when `uv.x + uv.y = 0`: for `uv` in `[0,1]²` that is the same as
`uv = (0, 0)`, while every point `w` with `w.x + w.y = 0`, such as `(-1, 1)`,
gets the mask value `1` and the density `1 / area`, whatever the fields of the
texture; for `n ≥ 3` the half-plane test itself would have rejected `(-1, 1)`. -/
theorem sentinel_exact (t : BladeTexture) (uv w : Vec2f) (n : ℤ) (r : ℝ)
    (hx0 : 0 ≤ uv.x) (_hx1 : uv.x ≤ 1) (hy0 : 0 ≤ uv.y) (_hy1 : uv.y ≤ 1)
    (hw : w.x + w.y = 0) :
    (uv.x + uv.y = 0 ↔ uv = ⟨0, 0⟩)
      ∧ evaluate t uv = (if uv.x + uv.y = 0 then Vec3f.broadcast 1
          else if edgeValue t uv > 0 then Vec3f.broadcast 0 else Vec3f.broadcast 1)
      ∧ pdf t uv = (if uv.x + uv.y = 0 then 1 / t.area
          else if edgeValue t uv > 0 then 0 else 1 / t.area)
      ∧ evaluate t w = Vec3f.broadcast 1
      ∧ pdf t w = 1 / t.area
      ∧ evaluate t ⟨-1, 1⟩ = Vec3f.broadcast 1
      ∧ pdf t ⟨-1, 1⟩ = 1 / t.area
      ∧ (3 ≤ n → 0 < edgeValue (configured n r) ⟨-1, 1⟩) := by
  have hc : ∀ z : Vec2f, z.x + z.y = 0 → contains t z :=
    fun z hz => (contains_iff t z).mpr (Or.inl hz)
  have hm : contains t ⟨-1, 1⟩ := hc _ (by norm_num)
  refine ⟨⟨fun h => ?_, fun h => ?_⟩, evaluate_eq t uv, pdf_eq t uv, hc w hw,
    pdf_of_contains _ _ (hc w hw), hm, pdf_of_contains _ _ hm, fun hn => ?_⟩
  · exact Vec2f_ext _ _ (by simp only; linarith) (by simp only; linarith)
  · rw [h]; norm_num
  · apply edgeValue_pos_of_norm_gt_one n hn r ⟨-1, 1⟩
    rw [Real.lt_sqrt (by norm_num)]
    norm_num

/-- Witness for C20: the default shape, `uv = (0, 0)` and `w = (1, -1)`. -/
theorem sentinel_exact_witness :
    (0 : ℝ) ≤ 0 ∧ (0 : ℝ) ≤ 1 ∧ (1 : ℝ) + -1 = 0
      ∧ evaluate BladeTexture.default ⟨1, -1⟩ = Vec3f.broadcast 1
      ∧ pdf BladeTexture.default ⟨1, -1⟩ = 1 / BladeTexture.default.area :=
  ⟨le_refl 0, zero_le_one, by norm_num,
    (sentinel_exact BladeTexture.default ⟨0, 0⟩ ⟨1, -1⟩ 6 0 (le_refl 0) zero_le_one (le_refl 0)
      zero_le_one (by norm_num)).2.2.2.1,
    (sentinel_exact BladeTexture.default ⟨0, 0⟩ ⟨1, -1⟩ 6 0 (le_refl 0) zero_le_one (le_refl 0)
      zero_le_one (by norm_num)).2.2.2.2.1⟩

end BladeTexture

end Tungsten
